import Mathlib

/-!
Shallow embedding of the job/pipeline orchestrator of `src/src/jobs/controller.py`:
`JobStatus`, `Job`, `Pipeline` and `ProcessController`, together with proofs of the
specified properties of `get_execution_order`, `run`, `add_job`, `execute`,
`get_duration`, `get_status_summary` and `run_all_pipelines`.

Modelling conventions:
- Python dicts keyed by strings become association lists (`List (String × Job)` style
  collapses to `List Job` since the pipeline dict is keyed by the stored job's `name`);
  insertion order is the list order, exactly as Python dicts preserve it.
- Arbitrary Python values in the shared context become the inductive `Value`.
- A callable is a function from its static params and the shared context to
  `Except String Value`: `.error e` models the callable raising an exception whose
  stringification is `e`, `.ok v` models it returning `v`.
- `datetime.now()` is modelled by an explicit natural-number clock threaded through
  execution and incremented at each reading, so timestamps are strictly increasing
  and durations are exact naturals (no floating point).
- The unbounded recursion of the inner `visit` function of `get_execution_order` is
  modelled with a fuel parameter: a result `none` means the call has not terminated
  within `fuel` nested invocations, so divergence is `∀ fuel, result = none`.
-/

/-- Status of a job, mirroring the Python `JobStatus` enum (same member order). -/
inductive JobStatus where
  | pending
  | running
  | success
  | failed
  | skipped
deriving DecidableEq, BEq, Repr

/-- String value of each `JobStatus` member, mirroring the enum values. -/
def JobStatus.value : JobStatus → String
  | .pending => "pending"
  | .running => "running"
  | .success => "success"
  | .failed => "failed"
  | .skipped => "skipped"

/-- Iteration order of the `JobStatus` enum, as used by `get_status_summary`. -/
def JobStatus.all : List JobStatus :=
  [.pending, .running, .success, .failed, .skipped]

/-- Python values stored in the shared context: numbers, strings, dicts, None. -/
inductive Value where
  | int (n : Int)
  | str (s : String)
  | dict (entries : List (String × Value))
  | null

/-- A context / params mapping: an association list keyed by strings, in insertion
order, mirroring a Python dict. -/
abbrev Ctx := List (String × Value)

/-- Dict lookup `m[k]` returning `none` when the key is absent. -/
def lookup (m : Ctx) (k : String) : Option Value :=
  match m.find? (fun e => e.1 == k) with
  | some e => some e.2
  | none => none

/-- Dict assignment `m[k] = v`: replaces the value of an existing key in place,
otherwise appends the new entry, exactly like a Python dict. -/
def setVal (m : Ctx) (k : String) (v : Value) : Ctx :=
  if m.any (fun e => e.1 == k) then
    m.map (fun e => if e.1 == k then (k, v) else e)
  else
    m ++ [(k, v)]

/-- Dict merge `m.update(other)`: assigns every entry of `other` into `m`. -/
def ctxUpdate (m : Ctx) (other : Ctx) : Ctx :=
  other.foldl (fun acc e => setVal acc e.1 e.2) m

/-- A job, mirroring the Python `Job` class. The callable `func` receives the static
`params` and the shared context; `Except.error` models it raising. Fields default to
the values set by `Job.__init__`. -/
structure Job where
  name : String
  func : Ctx → Ctx → Except String Value
  depends_on : List String := []
  params : Ctx := []
  status : JobStatus := .pending
  result : Option Value := none
  error : Option String := none
  start_time : Option Nat := none
  end_time : Option Nat := none

/-- Embedding of `Job.execute`: sets `status = Running` and `start_time`, invokes the
callable on the merged params and context, then records the outcome; the clock is read
once at entry and once (in the `finally` block) at exit. Returns the updated job, the
advanced clock, and the callable's outcome (`.error` re-raised to the caller). -/
def Job.execute (job : Job) (context : Ctx) (clock : Nat) :
    Job × Nat × Except String Value :=
  let started := { job with status := JobStatus.running, start_time := some clock }
  let clock1 := clock + 1
  match job.func job.params context with
  | .ok v =>
      ({ started with result := some v, status := JobStatus.success,
                      end_time := some clock1 }, clock1 + 1, .ok v)
  | .error e =>
      ({ started with status := JobStatus.failed, error := some e,
                      end_time := some clock1 }, clock1 + 1, .error e)

/-- Embedding of `Job.get_duration`: the elapsed time between `start_time` and
`end_time` when both are recorded, otherwise `none`. -/
def Job.get_duration (job : Job) : Option Nat :=
  match job.start_time, job.end_time with
  | some s, some e => some (e - s)
  | _, _ => none

/-- A pipeline, mirroring the Python `Pipeline` class: the `jobs` dict is the list of
jobs in insertion order (keyed by their `name`), plus the shared `context`. -/
structure Pipeline where
  name : String
  jobs : List Job := []
  context : Ctx := []

/-- Dict lookup `self.jobs[job_name]` / `job_name in self.jobs`. -/
def findJob (jobs : List Job) (jobName : String) : Option Job :=
  jobs.find? (fun j => j.name == jobName)

/-- Embedding of `Pipeline.add_job`: raises `ValueError` (the `DuplicateJob`
condition) if a job with the same name already exists, otherwise inserts it. -/
def Pipeline.add_job (p : Pipeline) (job : Job) : Except String Pipeline :=
  if (findJob p.jobs job.name).isSome then
    .error s!"Job {job.name} already exists in pipeline"
  else
    .ok { p with jobs := p.jobs ++ [job] }

/-- Embedding of `Pipeline.remove_job`. -/
def Pipeline.remove_job (p : Pipeline) (jobName : String) : Pipeline :=
  { p with jobs := p.jobs.filter (fun j => !(j.name == jobName)) }

/-- State of the traversal inside `get_execution_order`: the `visited` set and the
`ordered` output list (appended to in lock-step by the Python code). -/
structure VisitState where
  visited : List String
  ordered : List String

/-- Sequential traversal of a list of job names with a given visiting function
(the `for dep in job.depends_on` loop, and also the outer `for job_name in
self.jobs` loop), propagating fuel exhaustion and raised errors. -/
def visitList (f : VisitState → String → Option (Except String VisitState)) :
    VisitState → List String → Option (Except String VisitState)
  | s, [] => some (.ok s)
  | s, d :: ds =>
    match f s d with
    | none => none
    | some (.error e) => some (.error e)
    | some (.ok s') => visitList f s' ds

/-- Embedding of the inner recursive `visit` function of `get_execution_order`, with
a fuel bound on the recursion depth. `none` means the fuel was exhausted, i.e. the
Python call has not returned within `fuel` nested invocations; `some (.error e)`
means it raised `ValueError e` (the `MissingDependency` condition); `some (.ok s)`
means it returned with traversal state `s`. -/
def visit (jobs : List Job) : Nat → VisitState → String → Option (Except String VisitState)
  | 0 => fun _ _ => none
  | fuel + 1 => fun s jobName =>
    if jobName ∈ s.visited then some (.ok s)
    else
      match findJob jobs jobName with
      | none => some (.error s!"Job {jobName} not found in pipeline")
      | some job =>
        match visitList (visit jobs fuel) s job.depends_on with
        | none => none
        | some (.error e) => some (.error e)
        | some (.ok s') =>
            some (.ok ⟨jobName :: s'.visited, s'.ordered ++ [jobName]⟩)

/-- Shorthand for one fuelled level of dependency traversal. -/
def visitDeps (jobs : List Job) (fuel : Nat) :
    VisitState → List String → Option (Except String VisitState) :=
  visitList (visit jobs fuel)

/-- Embedding of `Pipeline.get_execution_order`: visits every job name in insertion
order starting from an empty traversal state and returns the accumulated order.
`none` propagates fuel exhaustion (the Python call recursing past `fuel`). -/
def getExecutionOrder (jobs : List Job) (fuel : Nat) : Option (Except String (List String)) :=
  match visitDeps jobs fuel ⟨[], []⟩ (jobs.map Job.name) with
  | none => none
  | some (.error e) => some (.error e)
  | some (.ok s) => some (.ok s.ordered)

/-- Direct dependency relation of a job list: `DependsOn jobs d j` holds when the
job stored under name `j` declares `d` in its `depends_on` list. -/
def DependsOn (jobs : List Job) (d j : String) : Prop :=
  ∃ job, findJob jobs j = some job ∧ d ∈ job.depends_on

/-- Every declared dependency of every job of the list is present in the list. -/
def AllDepsPresent (jobs : List Job) : Prop :=
  ∀ job ∈ jobs, ∀ d ∈ job.depends_on, (findJob jobs d).isSome

/-- The dependency graph is acyclic: every name is accessible under `DependsOn`. -/
def Acyclic (jobs : List Job) : Prop :=
  ∀ n, Acc (DependsOn jobs) n

/-- State threaded through the job loop of `Pipeline.run`: the (mutated) jobs dict,
the shared context, the clock, and the log of `context[key] = value` assignments the
loop has performed, in order. -/
structure RunState where
  jobs : List Job
  context : Ctx
  clock : Nat
  writes : List (String × Value)

/-- Mutation of the job object stored under `jobName` in the jobs dict. -/
def updateJob (jobs : List Job) (jobName : String) (newJob : Job) : List Job :=
  jobs.map (fun j => if j.name == jobName then newJob else j)

/-- The dependency gate of `Pipeline.run`: walks `depends_on` in order; a missing
dependency raises `KeyError` (the lookup `self.jobs[dep_name]`), the first
dependency whose status is not `Success` yields `ok false` (the job is skipped),
otherwise `ok true` (the job can run). -/
def checkDeps (jobs : List Job) : List String → Except String Bool
  | [] => .ok true
  | d :: ds =>
    match findJob jobs d with
    | none => .error s!"KeyError: {d}"
    | some depJob =>
      if depJob.status = JobStatus.success then checkDeps jobs ds else .ok false

/-- Key under which a job's result is stored in the shared context. -/
def resultKey (jobName : String) : String :=
  "job_" ++ jobName ++ "_result"

/-- The `for job_name in execution_order` loop of `Pipeline.run`: marks a job
`Skipped` when its dependency gate fails, otherwise executes it and stores its
result into the context under `job_<name>_result`; the first raised exception
(from `Job.execute`) aborts the loop and is re-raised. -/
def runJobs : List String → RunState → RunState × Except String Unit
  | [], st => (st, .ok ())
  | jobName :: rest, st =>
    match findJob st.jobs jobName with
    | none => (st, .error s!"KeyError: {jobName}")
    | some job =>
      match checkDeps st.jobs job.depends_on with
      | .error e => (st, .error e)
      | .ok false =>
          runJobs rest
            { st with jobs := updateJob st.jobs jobName { job with status := JobStatus.skipped } }
      | .ok true =>
        match job.execute st.context st.clock with
        | (newJob, clock2, .ok v) =>
            runJobs rest
              { jobs := updateJob st.jobs jobName newJob,
                context := setVal st.context (resultKey jobName) v,
                clock := clock2,
                writes := st.writes ++ [(resultKey jobName, v)] }
        | (newJob, clock2, .error e) =>
            ({ st with jobs := updateJob st.jobs jobName newJob, clock := clock2 }, .error e)

/-- Merging of the `initial_context` argument into the pipeline context at the top
of `run`: Python's `if initial_context:` skips both `None` and an empty dict. -/
def runInitialContext (p : Pipeline) (initial_context : Option Ctx) : Ctx :=
  match initial_context with
  | some i => if i.isEmpty then p.context else ctxUpdate p.context i
  | none => p.context

/-- Embedding of `Pipeline.run`: merges a truthy `initial_context` into the
pipeline context, computes the execution order (a failure there aborts the run
before any job executes), then runs the job loop. Returns the updated pipeline, the
advanced clock, the log of context writes made by the loop, and either the final
context or the re-raised exception; `none` propagates non-termination of the order
computation. -/
def Pipeline.run (p : Pipeline) (fuel : Nat) (initial_context : Option Ctx) (clock : Nat) :
    Option (Pipeline × Nat × List (String × Value) × Except String Ctx) :=
  match getExecutionOrder p.jobs fuel with
  | none => none
  | some (.error e) =>
      some ({ p with context := runInitialContext p initial_context }, clock, [], .error e)
  | some (.ok order) =>
    match runJobs order { jobs := p.jobs, context := runInitialContext p initial_context,
                          clock := clock, writes := [] } with
    | (st2, res) =>
      some ({ p with jobs := st2.jobs, context := st2.context }, st2.clock, st2.writes,
        match res with
        | .ok _ => .ok st2.context
        | .error e => .error e)

/-- The loop state at the top of `Pipeline.run`'s job loop. -/
def runLoopState (p : Pipeline) (initial_context : Option Ctx) (clock : Nat) : RunState :=
  { jobs := p.jobs, context := runInitialContext p initial_context,
    clock := clock, writes := [] }

/-- Per-job entry of the status summary. -/
structure JobReport where
  status : String
  duration : Option Nat
  error : Option String
deriving DecidableEq

/-- The dict returned by `Pipeline.get_status_summary`. -/
structure StatusSummary where
  pipeline : String
  total_jobs : Nat
  status_counts : List (String × Nat)
  total_duration : Nat
  jobs : List (String × JobReport)
deriving DecidableEq

/-- Embedding of `Pipeline.get_status_summary`: job count, per-status counts over
the whole enum, total duration accumulated over jobs with a truthy (non-`None`,
non-zero) duration, and the per-job breakdown. -/
def Pipeline.get_status_summary (p : Pipeline) : StatusSummary :=
  { pipeline := p.name
    total_jobs := p.jobs.length
    status_counts :=
      JobStatus.all.map (fun st => (st.value, (p.jobs.filter (fun j => j.status == st)).length))
    total_duration :=
      p.jobs.foldl (fun acc job =>
        match job.get_duration with
        | some d => if d == 0 then acc else acc + d
        | none => acc) 0
    jobs := p.jobs.map (fun j =>
      (j.name, { status := j.status.value, duration := j.get_duration, error := j.error })) }

/-- The process controller: its `pipelines` dict in insertion order. -/
structure ProcessController where
  pipelines : List Pipeline := []

/-- Embedding of `ProcessController.add_pipeline` (dict assignment keyed by the
pipeline name: replaces an existing entry in place, otherwise appends). -/
def ProcessController.add_pipeline (c : ProcessController) (p : Pipeline) : ProcessController :=
  if c.pipelines.any (fun q => q.name == p.name) then
    { pipelines := c.pipelines.map (fun q => if q.name == p.name then p else q) }
  else
    { pipelines := c.pipelines ++ [p] }

/-- The `for name, pipeline in self.pipelines.items()` loop of
`run_all_pipelines`: runs each pipeline with the same initial context, stores its
final context as its result entry on success and `{'error': str(e)}` on a raised
exception, and always continues with the remaining pipelines. `none` propagates
non-termination of a pipeline's order computation. -/
def runAllAux (fuel : Nat) (context : Option Ctx) :
    List Pipeline → Nat → Option (List (String × Ctx) × List Pipeline × Nat)
  | [], clock => some ([], [], clock)
  | p :: rest, clock =>
    match p.run fuel context clock with
    | none => none
    | some (p', clock', _, outcome) =>
      let entry := match outcome with
        | .ok ctx => ctx
        | .error e => [("error", Value.str e)]
      match runAllAux fuel context rest clock' with
      | none => none
      | some (entries, ps, clockEnd) => some ((p.name, entry) :: entries, p' :: ps, clockEnd)

/-- Embedding of `ProcessController.run_all_pipelines`: runs every pipeline in
insertion order, recording per-pipeline results (or error entries) and never
propagating a failure raised inside a pipeline. -/
def ProcessController.run_all_pipelines (c : ProcessController) (fuel : Nat)
    (context : Option Ctx) (clock : Nat) :
    Option (List (String × Ctx) × ProcessController × Nat) :=
  match runAllAux fuel context c.pipelines clock with
  | none => none
  | some (results, ps, clockEnd) => some (results, { pipelines := ps }, clockEnd)

/-! Concrete jobs and pipelines used to instantiate the theorems below. -/

/-- The `load` job of the spec example: returns the dict `{"x": 1}`. -/
def exLoad : Job :=
  { name := "load", func := fun _ _ => .ok (.dict [("x", .int 1)]) }

/-- The `double` job of the spec example: depends on `load` and returns twice
`load`'s `x`, read from the shared context. -/
def exDouble : Job :=
  { name := "double", depends_on := ["load"],
    func := fun _ ctx =>
      match lookup ctx "job_load_result" with
      | some (.dict d) =>
        match lookup d "x" with
        | some (.int n) => .ok (.int (2 * n))
        | _ => .error "KeyError: x"
      | _ => .error "KeyError: job_load_result" }

/-- The two-job example pipeline `{load, double→[load]}`. -/
def exPipe : Pipeline := { name := "example", jobs := [exLoad, exDouble] }

/-- One half of a two-job dependency cycle. -/
def cycA : Job := { name := "a", depends_on := ["b"], func := fun _ _ => .ok .null }

/-- The other half of the two-job dependency cycle. -/
def cycB : Job := { name := "b", depends_on := ["a"], func := fun _ _ => .ok .null }

/-- A cyclic two-job list: `a` depends on `b` and `b` depends on `a`. -/
def cycJobs : List Job := [cycA, cycB]

/-- A job whose declared dependency `zz` is absent from the pipeline. -/
def missC : Job := { name := "c", depends_on := ["zz"], func := fun _ _ => .ok .null }

/-- A job list whose first two jobs form a cycle while the third declares a
missing dependency. -/
def cycMissJobs : List Job := [cycA, cycB, missC]

/-- A job whose callable always raises. -/
def failJob : Job := { name := "boom", func := fun _ _ => .error "ValueError: boom" }

/-- A pipeline whose single job succeeds. -/
def okPipe : Pipeline := { name := "p1", jobs := [exLoad] }

/-- A pipeline whose single job raises. -/
def failPipe : Pipeline := { name := "p2", jobs := [failJob] }

/-- A pipeline whose single job declares a missing dependency. -/
def missPipe : Pipeline := { name := "m", jobs := [missC] }

/-- A controller holding a succeeding and a failing pipeline. -/
def exCtrl : ProcessController := { pipelines := [okPipe, failPipe] }

/-- The duration a job contributes to the summary total: its recorded duration, or
zero when it has none. -/
def durOrZero (job : Job) : Nat :=
  (job.get_duration).getD 0

/-! Basic lemmas about lookups, updates and the dependency relation. -/

lemma findJob_eq_some {jobs : List Job} {n : String} {job : Job}
    (h : findJob jobs n = some job) : job ∈ jobs ∧ job.name = n := by
  refine ⟨List.mem_of_find?_eq_some h, ?_⟩
  have hb := List.find?_some h
  exact beq_iff_eq.mp hb

lemma findJob_isSome_iff {jobs : List Job} {n : String} :
    (findJob jobs n).isSome ↔ n ∈ jobs.map Job.name := by
  constructor
  · intro h
    obtain ⟨job, hj⟩ := Option.isSome_iff_exists.mp h
    obtain ⟨hmem, hname⟩ := findJob_eq_some hj
    exact List.mem_map.mpr ⟨job, hmem, hname⟩
  · intro h
    obtain ⟨job, hmem, hname⟩ := List.mem_map.mp h
    cases hfind : findJob jobs n with
    | some j => simp
    | none =>
      have := List.find?_eq_none.mp hfind job hmem
      simp [hname] at this

lemma findJob_mem_name {jobs : List Job} {job : Job} (h : job ∈ jobs) :
    (findJob jobs job.name).isSome :=
  findJob_isSome_iff.mpr (List.mem_map.mpr ⟨job, h, rfl⟩)

lemma updateJob_map_name {jobs : List Job} {n : String} {newJob : Job}
    (hname : newJob.name = n) :
    (updateJob jobs n newJob).map Job.name = jobs.map Job.name := by
  unfold updateJob
  rw [List.map_map]
  apply List.map_congr_left
  intro j _
  by_cases hb : j.name = n
  · simp [Function.comp, hb, hname]
  · simp [Function.comp, beq_eq_false_iff_ne.mpr hb]

lemma updateJob_cons_pos {j : Job} {rest : List Job} {n : String} {newJob : Job}
    (hb : j.name = n) :
    updateJob (j :: rest) n newJob = newJob :: updateJob rest n newJob := by
  unfold updateJob
  rw [List.map_cons, if_pos (beq_iff_eq.mpr hb)]

lemma updateJob_cons_neg {j : Job} {rest : List Job} {n : String} {newJob : Job}
    (hb : ¬ j.name = n) :
    updateJob (j :: rest) n newJob = j :: updateJob rest n newJob := by
  unfold updateJob
  rw [List.map_cons, if_neg]
  simp [beq_eq_false_iff_ne.mpr hb]

lemma findJob_cons_pos {j : Job} {rest : List Job} {m : String} (hb : j.name = m) :
    findJob (j :: rest) m = some j :=
  List.find?_cons_of_pos _ (beq_iff_eq.mpr hb)

lemma findJob_cons_neg {j : Job} {rest : List Job} {m : String} (hb : ¬ j.name = m) :
    findJob (j :: rest) m = findJob rest m :=
  List.find?_cons_of_neg _ (by simp [beq_eq_false_iff_ne.mpr hb])

lemma findJob_updateJob_self {jobs : List Job} {n : String} {job newJob : Job}
    (h : findJob jobs n = some job) (hname : newJob.name = n) :
    findJob (updateJob jobs n newJob) n = some newJob := by
  induction jobs with
  | nil => simp [findJob] at h
  | cons j rest ih =>
    by_cases hb : j.name = n
    · rw [updateJob_cons_pos hb, findJob_cons_pos hname]
    · rw [updateJob_cons_neg hb, findJob_cons_neg hb]
      rw [findJob_cons_neg hb] at h
      exact ih h

lemma findJob_updateJob_ne {jobs : List Job} {n m : String} {newJob : Job}
    (hm : m ≠ n) (hname : newJob.name = n) :
    findJob (updateJob jobs n newJob) m = findJob jobs m := by
  induction jobs with
  | nil => rfl
  | cons j rest ih =>
    by_cases hb : j.name = n
    · rw [updateJob_cons_pos hb, findJob_cons_neg (by rw [hname]; exact Ne.symm hm),
        findJob_cons_neg (by rw [hb]; exact Ne.symm hm)]
      exact ih
    · by_cases hjm : j.name = m
      · rw [updateJob_cons_neg hb, findJob_cons_pos hjm, findJob_cons_pos hjm]
      · rw [updateJob_cons_neg hb, findJob_cons_neg hjm, findJob_cons_neg hjm]
        exact ih

lemma mem_updateJob {jobs : List Job} {n : String} {newJob j : Job}
    (h : j ∈ updateJob jobs n newJob) :
    j = newJob ∨ (j ∈ jobs ∧ j.name ≠ n) := by
  obtain ⟨x, hx, hxj⟩ := List.mem_map.mp h
  by_cases hb : x.name = n
  · rw [if_pos (beq_iff_eq.mpr hb)] at hxj
    exact Or.inl hxj.symm
  · rw [if_neg (by simp [beq_eq_false_iff_ne.mpr hb])] at hxj
    exact Or.inr ⟨hxj ▸ hx, hxj ▸ hb⟩

lemma checkDeps_ok_true {jobs : List Job} {ds : List String}
    (h : ∀ d ∈ ds, ∃ jd, findJob jobs d = some jd ∧ jd.status = JobStatus.success) :
    checkDeps jobs ds = .ok true := by
  induction ds with
  | nil => rfl
  | cons d rest ih =>
    obtain ⟨jd, hfind, hst⟩ := h d (by simp)
    simp only [checkDeps, hfind, hst, if_pos rfl]
    exact ih (fun d' hd' => h d' (by simp [hd']))

lemma checkDeps_ne_error {jobs : List Job} {ds : List String}
    (h : ∀ d ∈ ds, (findJob jobs d).isSome) :
    ∀ e, checkDeps jobs ds ≠ .error e := by
  induction ds with
  | nil => intro e; simp [checkDeps]
  | cons d rest ih =>
    intro e
    obtain ⟨jd, hfind⟩ := Option.isSome_iff_exists.mp (h d (by simp))
    simp only [checkDeps, hfind]
    by_cases hst : jd.status = JobStatus.success
    · simp only [if_pos hst]
      exact ih (fun d' hd' => h d' (by simp [hd'])) e
    · simp [if_neg hst]

lemma acc_not_transGen_self {α : Sort _} {r : α → α → Prop} :
    ∀ {a : α}, Acc r a → ¬ Relation.TransGen r a a := by
  intro a h
  induction h with
  | intro a _ ih =>
    intro hcyc
    cases hcyc with
    | single h₁ => exact ih a h₁ (.single h₁)
    | tail hab hba => exact ih _ hba ((Relation.TransGen.single hba).trans hab)

lemma acyclic_of_ranked {jobs : List Job} (f : String → Nat)
    (hf : ∀ d n, DependsOn jobs d n → f d < f n) : Acyclic jobs := by
  intro n
  have key : ∀ k n, f n < k → Acc (DependsOn jobs) n := by
    intro k
    induction k with
    | zero => intro n h; omega
    | succ k ih =>
      intro n hn
      constructor
      intro y hy
      exact ih y (by have := hf y n hy; omega)
  exact key (f n + 1) n (by omega)

lemma resultKey_injective {n m : String}
    (h : "job_" ++ n ++ "_result" = "job_" ++ m ++ "_result") : n = m := by
  have hd := congrArg String.data h
  simp only [String.data_append] at hd
  have h1 := List.append_cancel_right hd
  have h2 := List.append_cancel_left h1
  exact String.ext h2

/-! Unfolding lemmas for the fuelled traversal. -/

lemma visit_zero {jobs : List Job} {s : VisitState} {n : String} :
    visit jobs 0 s n = none := rfl

lemma visit_succ_of_mem {jobs : List Job} {fuel : Nat} {s : VisitState} {n : String}
    (h : n ∈ s.visited) : visit jobs (fuel + 1) s n = some (.ok s) := by
  unfold visit
  rw [if_pos h]

lemma visit_succ_of_not_found {jobs : List Job} {fuel : Nat} {s : VisitState} {n : String}
    (h : n ∉ s.visited) (hf : findJob jobs n = none) :
    visit jobs (fuel + 1) s n = some (.error s!"Job {n} not found in pipeline") := by
  unfold visit
  rw [if_neg h, hf]

lemma visit_succ_of_found {jobs : List Job} {fuel : Nat} {s : VisitState} {n : String}
    {job : Job} (h : n ∉ s.visited) (hf : findJob jobs n = some job) :
    visit jobs (fuel + 1) s n =
      match visitList (visit jobs fuel) s job.depends_on with
      | none => none
      | some (.error e) => some (.error e)
      | some (.ok s') => some (.ok ⟨n :: s'.visited, s'.ordered ++ [n]⟩) := by
  have hstep : visit jobs (fuel + 1) s n =
      if n ∈ s.visited then some (.ok s)
      else
        match findJob jobs n with
        | none => some (.error s!"Job {n} not found in pipeline")
        | some job =>
          match visitList (visit jobs fuel) s job.depends_on with
          | none => none
          | some (.error e) => some (.error e)
          | some (.ok s') => some (.ok ⟨n :: s'.visited, s'.ordered ++ [n]⟩) := rfl
  rw [hstep, if_neg h, hf]

lemma visitList_nil {f : VisitState → String → Option (Except String VisitState)}
    {s : VisitState} : visitList f s [] = some (.ok s) := rfl

lemma visitList_cons {f : VisitState → String → Option (Except String VisitState)}
    {s : VisitState} {d : String} {ds : List String} :
    visitList f s (d :: ds) =
      match f s d with
      | none => none
      | some (.error e) => some (.error e)
      | some (.ok s') => visitList f s' ds := rfl

/-- Invariant of the traversal state: `visited` and `ordered` hold the same names,
`ordered` has no duplicates, every ordered name resolves in the jobs dict, and every
ordered job appears strictly after each of its declared dependencies. -/
structure GoodState (jobs : List Job) (s : VisitState) : Prop where
  mem_iff : ∀ x, x ∈ s.visited ↔ x ∈ s.ordered
  nodup : s.ordered.Nodup
  present : ∀ x ∈ s.ordered, (findJob jobs x).isSome
  deps_before : ∀ x ∈ s.ordered, ∀ job, findJob jobs x = some job →
    ∀ d ∈ job.depends_on, d ∈ s.ordered ∧ s.ordered.indexOf d < s.ordered.indexOf x

lemma goodState_init {jobs : List Job} : GoodState jobs ⟨[], []⟩ := by
  constructor <;> simp

lemma GoodState.visited_mono {jobs : List Job} {s s' : VisitState}
    (hs : GoodState jobs s) (hs' : GoodState jobs s')
    (hext : ∃ t, s'.ordered = s.ordered ++ t) {x : String} (hx : x ∈ s.visited) :
    x ∈ s'.visited := by
  obtain ⟨t, ht⟩ := hext
  have : x ∈ s.ordered := (hs.mem_iff x).mp hx
  exact (hs'.mem_iff x).mpr (by rw [ht]; exact List.mem_append_left _ this)

/-- Conclusions of a successful `visit` call: the invariant is preserved, the order
is extended, the visited name ends up visited, and every newly visited name is a
(transitive) dependency of the visited name. -/
def VisitOk (jobs : List Job)
    (f : VisitState → String → Option (Except String VisitState)) : Prop :=
  ∀ s n s', GoodState jobs s → Acc (DependsOn jobs) n →
    f s n = some (.ok s') →
    GoodState jobs s' ∧ (∃ t, s'.ordered = s.ordered ++ t) ∧ n ∈ s'.visited ∧
    (∀ x ∈ s'.visited, x ∈ s.visited ∨ x = n ∨ Relation.TransGen (DependsOn jobs) x n)

lemma visitList_ok_spec_of {jobs : List Job}
    {f : VisitState → String → Option (Except String VisitState)}
    (hf : VisitOk jobs f) :
    ∀ (ds : List String) (s s' : VisitState), GoodState jobs s →
      (∀ d ∈ ds, Acc (DependsOn jobs) d) →
      visitList f s ds = some (.ok s') →
      GoodState jobs s' ∧ (∃ t, s'.ordered = s.ordered ++ t) ∧
      (∀ d ∈ ds, d ∈ s'.visited) ∧
      (∀ x ∈ s'.visited, x ∈ s.visited ∨
        ∃ d ∈ ds, x = d ∨ Relation.TransGen (DependsOn jobs) x d) := by
  intro ds
  induction ds with
  | nil =>
    intro s s' hgood _ hv
    rw [visitList_nil] at hv
    obtain rfl : s = s' := by injection hv with h; injection h
    exact ⟨hgood, ⟨[], by simp⟩, by simp, fun x hx => Or.inl hx⟩
  | cons d ds ih =>
    intro s s' hgood hacc hv
    rw [visitList_cons] at hv
    cases hfd : f s d with
    | none => rw [hfd] at hv; exact absurd hv (by simp)
    | some r =>
      cases r with
      | error e => rw [hfd] at hv; exact absurd hv (by simp)
      | ok s₁ =>
        rw [hfd] at hv
        obtain ⟨h1good, h1ext, h1mem, h1prov⟩ :=
          hf s d s₁ hgood (hacc d (by simp)) hfd
        obtain ⟨h2good, h2ext, h2mem, h2prov⟩ :=
          ih s₁ s' h1good (fun d' hd' => hacc d' (by simp [hd'])) hv
        refine ⟨h2good, ?_, ?_, ?_⟩
        · obtain ⟨t1, ht1⟩ := h1ext
          obtain ⟨t2, ht2⟩ := h2ext
          exact ⟨t1 ++ t2, by rw [ht2, ht1, List.append_assoc]⟩
        · intro d' hd'
          rcases List.mem_cons.mp hd' with rfl | hd'
          · exact h1good.visited_mono h2good h2ext h1mem
          · exact h2mem d' hd'
        · intro x hx
          rcases h2prov x hx with hx1 | ⟨d', hd', hcase⟩
          · rcases h1prov x hx1 with hx0 | hcase
            · exact Or.inl hx0
            · exact Or.inr ⟨d, by simp, hcase⟩
          · exact Or.inr ⟨d', by simp [hd'], hcase⟩

lemma visit_ok_spec (jobs : List Job) : ∀ fuel, VisitOk jobs (visit jobs fuel) := by
  intro fuel
  induction fuel with
  | zero => intro s n s' _ _ hv; rw [visit_zero] at hv; exact absurd hv (by simp)
  | succ fuel ih =>
    intro s n s' hgood hacc hv
    by_cases hmem : n ∈ s.visited
    · rw [visit_succ_of_mem hmem] at hv
      obtain rfl : s = s' := by injection hv with h; injection h
      exact ⟨hgood, ⟨[], by simp⟩, hmem, fun x hx => Or.inl hx⟩
    · cases hfind : findJob jobs n with
      | none =>
        rw [visit_succ_of_not_found hmem hfind] at hv
        exact absurd hv (by simp)
      | some job =>
        rw [visit_succ_of_found hmem hfind] at hv
        cases hdl : visitList (visit jobs fuel) s job.depends_on with
        | none => rw [hdl] at hv; exact absurd hv (by simp)
        | some r =>
          cases r with
          | error e => rw [hdl] at hv; exact absurd hv (by simp)
          | ok s₁ =>
            rw [hdl] at hv
            have haccdeps : ∀ d ∈ job.depends_on, Acc (DependsOn jobs) d :=
              fun d hd => hacc.inv ⟨job, hfind, hd⟩
            obtain ⟨h1good, ⟨t1, ht1⟩, h1mem, h1prov⟩ :=
              visitList_ok_spec_of ih job.depends_on s s₁ hgood haccdeps hdl
            obtain rfl : (⟨n :: s₁.visited, s₁.ordered ++ [n]⟩ : VisitState) = s' := by
              injection hv with h; injection h
            have htodep : ∀ x ∈ s₁.visited, x ∈ s.visited ∨
                Relation.TransGen (DependsOn jobs) x n := by
              intro x hx
              rcases h1prov x hx with hx0 | ⟨d, hd, hcase⟩
              · exact Or.inl hx0
              · rcases hcase with rfl | htg
                · exact Or.inr (.single ⟨job, hfind, hd⟩)
                · exact Or.inr (htg.tail ⟨job, hfind, hd⟩)
            have hn1 : n ∉ s₁.visited := by
              intro hn
              rcases htodep n hn with hn0 | htg
              · exact hmem hn0
              · exact acc_not_transGen_self hacc htg
            have hn1o : n ∉ s₁.ordered := fun h => hn1 ((h1good.mem_iff n).mpr h)
            have hgood' : GoodState jobs ⟨n :: s₁.visited, s₁.ordered ++ [n]⟩ := by
              constructor
              · intro x
                simp only [List.mem_cons, List.mem_append, List.mem_singleton]
                rw [h1good.mem_iff x]
                tauto
              · simp only [List.nodup_append, List.nodup_singleton]
                exact ⟨h1good.nodup, by simp, by simpa using hn1o⟩
              · intro x hx
                rcases List.mem_append.mp hx with hx | hx
                · exact h1good.present x hx
                · rw [List.mem_singleton.mp hx, hfind]; rfl
              · intro x hx job' hfind' d hd
                rcases List.mem_append.mp hx with hx | hx
                · obtain ⟨hdo, hlt⟩ := h1good.deps_before x hx job' hfind' d hd
                  refine ⟨List.mem_append_left _ hdo, ?_⟩
                  rw [List.indexOf_append_of_mem hdo, List.indexOf_append_of_mem hx]
                  exact hlt
                · obtain rfl : x = n := List.mem_singleton.mp hx
                  obtain rfl : job' = job := by
                    have hji : job = job' := by
                      have h2 := hfind.symm.trans hfind'
                      injection h2
                    exact hji.symm
                  have hdmem : d ∈ s₁.ordered := (h1good.mem_iff d).mp (h1mem d hd)
                  refine ⟨List.mem_append_left _ hdmem, ?_⟩
                  rw [List.indexOf_append_of_mem hdmem,
                    List.indexOf_append_of_not_mem hn1o]
                  have : s₁.ordered.indexOf d < s₁.ordered.length :=
                    List.indexOf_lt_length.mpr hdmem
                  simp only [List.indexOf_cons_self]
                  omega
            refine ⟨hgood', ⟨t1 ++ [n], by simp [ht1]⟩, by simp, ?_⟩
            intro x hx
            rcases List.mem_cons.mp hx with rfl | hx
            · exact Or.inr (Or.inl rfl)
            · rcases htodep x hx with hx0 | htg
              · exact Or.inl hx0
              · exact Or.inr (Or.inr htg)

/-! Fuel monotonicity and structural facts about the traversal. -/

lemma visitList_mono_of {f g : VisitState → String → Option (Except String VisitState)}
    (hfg : ∀ s n r, f s n = some r → g s n = some r) :
    ∀ (ds : List String) (s : VisitState) (r : Except String VisitState),
      visitList f s ds = some r → visitList g s ds = some r := by
  intro ds
  induction ds with
  | nil => intro s r h; exact h
  | cons d ds ih =>
    intro s r h
    rw [visitList_cons] at h
    cases hfd : f s d with
    | none => rw [hfd] at h; exact absurd h (by simp)
    | some r' =>
      rw [hfd] at h
      rw [visitList_cons, hfg s d r' hfd]
      cases r' with
      | error e => exact h
      | ok s₁ => exact ih s₁ r h

lemma visit_mono {jobs : List Job} :
    ∀ (fuel : Nat) (s : VisitState) (n : String) (r : Except String VisitState),
      visit jobs fuel s n = some r → visit jobs (fuel + 1) s n = some r := by
  intro fuel
  induction fuel with
  | zero => intro s n r h; rw [visit_zero] at h; exact absurd h (by simp)
  | succ fuel ih =>
    intro s n r h
    by_cases hmem : n ∈ s.visited
    · rw [visit_succ_of_mem hmem] at h ⊢; exact h
    · cases hfind : findJob jobs n with
      | none => rw [visit_succ_of_not_found hmem hfind] at h ⊢; exact h
      | some job =>
        rw [visit_succ_of_found hmem hfind] at h ⊢
        cases hdl : visitList (visit jobs fuel) s job.depends_on with
        | none => rw [hdl] at h; exact absurd h (by simp)
        | some r' =>
          rw [hdl] at h
          rw [visitList_mono_of ih job.depends_on s r' hdl]
          exact h

lemma visit_mono_le {jobs : List Job} {fuel fuel' : Nat} (hle : fuel ≤ fuel')
    {s : VisitState} {n : String} {r : Except String VisitState}
    (h : visit jobs fuel s n = some r) : visit jobs fuel' s n = some r := by
  induction hle with
  | refl => exact h
  | step _ ih => exact visit_mono _ _ _ _ ih

lemma visitList_visit_mono_le {jobs : List Job} {fuel fuel' : Nat} (hle : fuel ≤ fuel')
    {s : VisitState} {ds : List String} {r : Except String VisitState}
    (h : visitList (visit jobs fuel) s ds = some r) :
    visitList (visit jobs fuel') s ds = some r :=
  visitList_mono_of (fun _ _ _ h' => visit_mono_le hle h') ds s r h

lemma visit_mem_visited {jobs : List Job} {fuel : Nat} {s s' : VisitState} {n : String}
    (h : visit jobs fuel s n = some (.ok s')) : n ∈ s'.visited := by
  cases fuel with
  | zero => rw [visit_zero] at h; exact absurd h (by simp)
  | succ fuel =>
    by_cases hmem : n ∈ s.visited
    · rw [visit_succ_of_mem hmem] at h
      obtain rfl : s = s' := by injection h with h'; injection h'
      exact hmem
    · cases hfind : findJob jobs n with
      | none => rw [visit_succ_of_not_found hmem hfind] at h; exact absurd h (by simp)
      | some job =>
        rw [visit_succ_of_found hmem hfind] at h
        cases hdl : visitList (visit jobs fuel) s job.depends_on with
        | none => rw [hdl] at h; exact absurd h (by simp)
        | some r' =>
          cases r' with
          | error e => rw [hdl] at h; exact absurd h (by simp)
          | ok s₁ =>
            rw [hdl] at h
            obtain rfl : (⟨n :: s₁.visited, s₁.ordered ++ [n]⟩ : VisitState) = s' := by
              injection h with h'; injection h'
            simp

lemma visitList_visitedExt_of {f : VisitState → String → Option (Except String VisitState)}
    (hf : ∀ s n s', f s n = some (.ok s') → ∃ u, s'.visited = u ++ s.visited) :
    ∀ (ds : List String) (s s' : VisitState),
      visitList f s ds = some (.ok s') → ∃ u, s'.visited = u ++ s.visited := by
  intro ds
  induction ds with
  | nil =>
    intro s s' h
    obtain rfl : s = s' := by injection h with h'; injection h'
    exact ⟨[], rfl⟩
  | cons d ds ih =>
    intro s s' h
    rw [visitList_cons] at h
    cases hfd : f s d with
    | none => rw [hfd] at h; exact absurd h (by simp)
    | some r' =>
      cases r' with
      | error e => rw [hfd] at h; exact absurd h (by simp)
      | ok s₁ =>
        rw [hfd] at h
        obtain ⟨u₁, hu₁⟩ := hf s d s₁ hfd
        obtain ⟨u₂, hu₂⟩ := ih s₁ s' h
        exact ⟨u₂ ++ u₁, by rw [hu₂, hu₁, List.append_assoc]⟩

lemma visit_visitedExt {jobs : List Job} :
    ∀ (fuel : Nat) (s : VisitState) (n : String) (s' : VisitState),
      visit jobs fuel s n = some (.ok s') → ∃ u, s'.visited = u ++ s.visited := by
  intro fuel
  induction fuel with
  | zero => intro s n s' h; rw [visit_zero] at h; exact absurd h (by simp)
  | succ fuel ih =>
    intro s n s' h
    by_cases hmem : n ∈ s.visited
    · rw [visit_succ_of_mem hmem] at h
      obtain rfl : s = s' := by injection h with h'; injection h'
      exact ⟨[], rfl⟩
    · cases hfind : findJob jobs n with
      | none => rw [visit_succ_of_not_found hmem hfind] at h; exact absurd h (by simp)
      | some job =>
        rw [visit_succ_of_found hmem hfind] at h
        cases hdl : visitList (visit jobs fuel) s job.depends_on with
        | none => rw [hdl] at h; exact absurd h (by simp)
        | some r' =>
          cases r' with
          | error e => rw [hdl] at h; exact absurd h (by simp)
          | ok s₁ =>
            rw [hdl] at h
            obtain rfl : (⟨n :: s₁.visited, s₁.ordered ++ [n]⟩ : VisitState) = s' := by
              injection h with h'; injection h'
            obtain ⟨u, hu⟩ :=
              visitList_visitedExt_of (fun a b c hc => ih a b c hc) job.depends_on s s₁ hdl
            exact ⟨n :: u, by simp [hu]⟩

/-! Accessibility is preserved by the traversal: only names all of whose
dependencies were already traversed ever enter the visited set. -/

lemma visitList_acc_of {jobs : List Job}
    {f : VisitState → String → Option (Except String VisitState)}
    (hf_acc : ∀ s n s', (∀ x ∈ s.visited, Acc (DependsOn jobs) x) →
      f s n = some (.ok s') → ∀ x ∈ s'.visited, Acc (DependsOn jobs) x)
    (hf_mem : ∀ s n s', f s n = some (.ok s') → n ∈ s'.visited)
    (hf_ext : ∀ s n s', f s n = some (.ok s') → ∃ u, s'.visited = u ++ s.visited) :
    ∀ (ds : List String) (s s' : VisitState),
      (∀ x ∈ s.visited, Acc (DependsOn jobs) x) →
      visitList f s ds = some (.ok s') →
      (∀ x ∈ s'.visited, Acc (DependsOn jobs) x) ∧ (∀ d ∈ ds, d ∈ s'.visited) := by
  intro ds
  induction ds with
  | nil =>
    intro s s' hacc h
    obtain rfl : s = s' := by injection h with h'; injection h'
    exact ⟨hacc, by simp⟩
  | cons d ds ih =>
    intro s s' hacc h
    rw [visitList_cons] at h
    cases hfd : f s d with
    | none => rw [hfd] at h; exact absurd h (by simp)
    | some r' =>
      cases r' with
      | error e => rw [hfd] at h; exact absurd h (by simp)
      | ok s₁ =>
        rw [hfd] at h
        have h1acc := hf_acc s d s₁ hacc hfd
        have h1mem := hf_mem s d s₁ hfd
        obtain ⟨h2acc, h2mem⟩ := ih s₁ s' h1acc h
        refine ⟨h2acc, ?_⟩
        intro d' hd'
        rcases List.mem_cons.mp hd' with rfl | hd'
        · obtain ⟨u, hu⟩ := visitList_visitedExt_of hf_ext ds s₁ s' h
          rw [hu]
          exact List.mem_append_right _ h1mem
        · exact h2mem d' hd'

lemma visit_acc_spec {jobs : List Job} :
    ∀ (fuel : Nat) (s : VisitState) (n : String) (s' : VisitState),
      (∀ x ∈ s.visited, Acc (DependsOn jobs) x) →
      visit jobs fuel s n = some (.ok s') →
      ∀ x ∈ s'.visited, Acc (DependsOn jobs) x := by
  intro fuel
  induction fuel with
  | zero => intro s n s' _ h; rw [visit_zero] at h; exact absurd h (by simp)
  | succ fuel ih =>
    intro s n s' hacc h
    by_cases hmem : n ∈ s.visited
    · rw [visit_succ_of_mem hmem] at h
      obtain rfl : s = s' := by injection h with h'; injection h'
      exact hacc
    · cases hfind : findJob jobs n with
      | none => rw [visit_succ_of_not_found hmem hfind] at h; exact absurd h (by simp)
      | some job =>
        rw [visit_succ_of_found hmem hfind] at h
        cases hdl : visitList (visit jobs fuel) s job.depends_on with
        | none => rw [hdl] at h; exact absurd h (by simp)
        | some r' =>
          cases r' with
          | error e => rw [hdl] at h; exact absurd h (by simp)
          | ok s₁ =>
            rw [hdl] at h
            obtain rfl : (⟨n :: s₁.visited, s₁.ordered ++ [n]⟩ : VisitState) = s' := by
              injection h with h'; injection h'
            obtain ⟨h1acc, h1mem⟩ :=
              visitList_acc_of ih (fun a b c hc => visit_mem_visited hc)
                (fun a b c hc => visit_visitedExt fuel a b c hc)
                job.depends_on s s₁ hacc hdl
            intro x hx
            rcases List.mem_cons.mp hx with rfl | hx
            · constructor
              intro y hy
              obtain ⟨job', hfind', hdy⟩ := hy
              have hji : job = job' := by
                have h2 := hfind.symm.trans hfind'
                injection h2
              subst hji
              exact h1acc y (h1mem y hdy)
            · exact h1acc x hx

/-! When every dependency of every job is present, the traversal never raises, and
any raised error names a missing job. -/

lemma visitList_ne_error_of {jobs : List Job}
    {f : VisitState → String → Option (Except String VisitState)}
    (hf : ∀ s n, (findJob jobs n).isSome → ∀ e, f s n ≠ some (.error e)) :
    ∀ (ds : List String) (s : VisitState),
      (∀ d ∈ ds, (findJob jobs d).isSome) →
      ∀ e, visitList f s ds ≠ some (.error e) := by
  intro ds
  induction ds with
  | nil => intro s _ e h; rw [visitList_nil] at h; exact absurd h (by simp)
  | cons d ds ih =>
    intro s hpres e h
    rw [visitList_cons] at h
    cases hfd : f s d with
    | none => rw [hfd] at h; exact absurd h (by simp)
    | some r' =>
      cases r' with
      | error e' => exact hf s d (hpres d (by simp)) e' hfd
      | ok s₁ =>
        rw [hfd] at h
        exact ih s₁ (fun d' hd' => hpres d' (by simp [hd'])) e h

lemma visit_ne_error {jobs : List Job} (hdp : AllDepsPresent jobs) :
    ∀ (fuel : Nat) (s : VisitState) (n : String),
      (findJob jobs n).isSome → ∀ e, visit jobs fuel s n ≠ some (.error e) := by
  intro fuel
  induction fuel with
  | zero => intro s n _ e h; rw [visit_zero] at h; exact absurd h (by simp)
  | succ fuel ih =>
    intro s n hpres e h
    by_cases hmem : n ∈ s.visited
    · rw [visit_succ_of_mem hmem] at h; exact absurd h (by simp)
    · cases hfind : findJob jobs n with
      | none => rw [hfind] at hpres; exact absurd hpres (by simp)
      | some job =>
        rw [visit_succ_of_found hmem hfind] at h
        cases hdl : visitList (visit jobs fuel) s job.depends_on with
        | none => rw [hdl] at h; exact absurd h (by simp)
        | some r' =>
          cases r' with
          | error e' =>
            have hjmem := (findJob_eq_some hfind).1
            exact visitList_ne_error_of ih job.depends_on s
              (fun d hd => hdp job hjmem d hd) e' hdl
          | ok s₁ => rw [hdl] at h; exact absurd h (by simp)

lemma visitList_error_shape_of {jobs : List Job}
    {f : VisitState → String → Option (Except String VisitState)}
    (hf : ∀ s n e, f s n = some (.error e) →
      ∃ d, findJob jobs d = none ∧ e = s!"Job {d} not found in pipeline") :
    ∀ (ds : List String) (s : VisitState) (e : String),
      visitList f s ds = some (.error e) →
      ∃ d, findJob jobs d = none ∧ e = s!"Job {d} not found in pipeline" := by
  intro ds
  induction ds with
  | nil => intro s e h; rw [visitList_nil] at h; exact absurd h (by simp)
  | cons d ds ih =>
    intro s e h
    rw [visitList_cons] at h
    cases hfd : f s d with
    | none => rw [hfd] at h; exact absurd h (by simp)
    | some r' =>
      cases r' with
      | error e' =>
        rw [hfd] at h
        obtain rfl : e' = e := by injection h with h'; injection h'
        exact hf s d _ hfd
      | ok s₁ =>
        rw [hfd] at h
        exact ih s₁ e h

lemma visit_error_shape {jobs : List Job} :
    ∀ (fuel : Nat) (s : VisitState) (n : String) (e : String),
      visit jobs fuel s n = some (.error e) →
      ∃ d, findJob jobs d = none ∧ e = s!"Job {d} not found in pipeline" := by
  intro fuel
  induction fuel with
  | zero => intro s n e h; rw [visit_zero] at h; exact absurd h (by simp)
  | succ fuel ih =>
    intro s n e h
    by_cases hmem : n ∈ s.visited
    · rw [visit_succ_of_mem hmem] at h; exact absurd h (by simp)
    · cases hfind : findJob jobs n with
      | none =>
        rw [visit_succ_of_not_found hmem hfind] at h
        obtain rfl : s!"Job {n} not found in pipeline" = e := by
          injection h with h'; injection h'
        exact ⟨n, hfind, rfl⟩
      | some job =>
        rw [visit_succ_of_found hmem hfind] at h
        cases hdl : visitList (visit jobs fuel) s job.depends_on with
        | none => rw [hdl] at h; exact absurd h (by simp)
        | some r' =>
          cases r' with
          | error e' =>
            rw [hdl] at h
            obtain rfl : e' = e := by injection h with h'; injection h'
            exact visitList_error_shape_of ih job.depends_on s _ hdl
          | ok s₁ => rw [hdl] at h; exact absurd h (by simp)

/-! Divergence: visiting a name that lies on (or reaches) a dependency cycle
exhausts any amount of fuel, i.e. the Python recursion never terminates. -/

lemma not_acc_elim {jobs : List Job} {n : String}
    (h : ¬ Acc (DependsOn jobs) n) :
    ∃ y, DependsOn jobs y n ∧ ¬ Acc (DependsOn jobs) y := by
  by_contra hcon
  push_neg at hcon
  exact h (Acc.intro n (fun y hy => hcon y hy))

lemma visitList_diverge_of {jobs : List Job} (hdp : AllDepsPresent jobs) (fuel : Nat)
    (hdiv : ∀ (s : VisitState) (n : String),
      (∀ x ∈ s.visited, Acc (DependsOn jobs) x) → ¬ Acc (DependsOn jobs) n →
      visit jobs fuel s n = none) :
    ∀ (ds : List String) (s : VisitState),
      (∀ x ∈ s.visited, Acc (DependsOn jobs) x) →
      (∀ d ∈ ds, (findJob jobs d).isSome) →
      (∃ d ∈ ds, ¬ Acc (DependsOn jobs) d) →
      visitList (visit jobs fuel) s ds = none := by
  intro ds
  induction ds with
  | nil => intro s _ _ hwit; simp at hwit
  | cons d ds ih =>
    intro s hacc hpres hwit
    by_cases hd : Acc (DependsOn jobs) d
    · cases hfd : visit jobs fuel s d with
      | none => rw [visitList_cons, hfd]
      | some r' =>
        cases r' with
        | error e =>
          exact absurd hfd (visit_ne_error hdp fuel s d (hpres d (by simp)) e)
        | ok s₁ =>
          rw [visitList_cons, hfd]
          have h1acc := visit_acc_spec fuel s d s₁ hacc hfd
          obtain ⟨d₀, hd₀mem, hd₀⟩ := hwit
          rcases List.mem_cons.mp hd₀mem with rfl | hd₀mem
          · exact absurd hd hd₀
          · exact ih s₁ h1acc (fun d' hd' => hpres d' (by simp [hd'])) ⟨d₀, hd₀mem, hd₀⟩
    · rw [visitList_cons, hdiv s d hacc hd]

lemma visit_diverge {jobs : List Job} (hdp : AllDepsPresent jobs) :
    ∀ (fuel : Nat) (s : VisitState) (n : String),
      (∀ x ∈ s.visited, Acc (DependsOn jobs) x) → ¬ Acc (DependsOn jobs) n →
      visit jobs fuel s n = none := by
  intro fuel
  induction fuel with
  | zero => intro s n _ _; exact visit_zero
  | succ fuel ih =>
    intro s n hacc hn
    have hmem : n ∉ s.visited := fun h => hn (hacc n h)
    obtain ⟨y, hy, hyacc⟩ := not_acc_elim hn
    obtain ⟨job, hfind, hymem⟩ := hy
    rw [visit_succ_of_found hmem hfind]
    have hjmem := (findJob_eq_some hfind).1
    rw [visitList_diverge_of hdp fuel ih job.depends_on s hacc
      (fun d hd => hdp job hjmem d hd) ⟨y, hymem, hyacc⟩]

/-! Totality: visiting an accessible name terminates with some outcome. -/

lemma visitList_total_of {jobs : List Job} {ds : List String}
    (hds : ∀ d ∈ ds, ∀ s : VisitState, ∃ fuel r, visit jobs fuel s d = some r) :
    ∀ s : VisitState, ∃ fuel r, visitList (visit jobs fuel) s ds = some r := by
  induction ds with
  | nil => intro s; exact ⟨0, .ok s, rfl⟩
  | cons d ds ih =>
    intro s
    obtain ⟨fuel₁, r₁, h₁⟩ := hds d (by simp) s
    cases r₁ with
    | error e =>
      refine ⟨fuel₁, .error e, ?_⟩
      rw [visitList_cons, h₁]
    | ok s₁ =>
      obtain ⟨fuel₂, r₂, h₂⟩ := ih (fun d' hd' s' => hds d' (by simp [hd']) s') s₁
      refine ⟨max fuel₁ fuel₂, r₂, ?_⟩
      rw [visitList_cons, visit_mono_le (le_max_left fuel₁ fuel₂) h₁]
      exact visitList_visit_mono_le (le_max_right fuel₁ fuel₂) h₂

lemma visit_total {jobs : List Job} {n : String} (hacc : Acc (DependsOn jobs) n) :
    ∀ s : VisitState, ∃ fuel r, visit jobs fuel s n = some r := by
  induction hacc with
  | intro n _ ih =>
    intro s
    by_cases hmem : n ∈ s.visited
    · exact ⟨1, .ok s, visit_succ_of_mem hmem⟩
    · cases hfind : findJob jobs n with
      | none => exact ⟨1, _, visit_succ_of_not_found hmem hfind⟩
      | some job =>
        have hds : ∀ d ∈ job.depends_on, ∀ s' : VisitState,
            ∃ fuel r, visit jobs fuel s' d = some r :=
          fun d hd s' => ih d ⟨job, hfind, hd⟩ s'
        obtain ⟨fuel, r, hr⟩ := visitList_total_of hds s
        cases r with
        | error e =>
          refine ⟨fuel + 1, .error e, ?_⟩
          rw [visit_succ_of_found hmem hfind, hr]
        | ok s₁ =>
          refine ⟨fuel + 1, .ok ⟨n :: s₁.visited, s₁.ordered ++ [n]⟩, ?_⟩
          rw [visit_succ_of_found hmem hfind, hr]

/-! Top-level properties of `get_execution_order`. -/

lemma getExecutionOrder_eq (jobs : List Job) (fuel : Nat) :
    getExecutionOrder jobs fuel =
      match visitList (visit jobs fuel) ⟨[], []⟩ (jobs.map Job.name) with
      | none => none
      | some (.error e) => some (.error e)
      | some (.ok s) => some (.ok s.ordered) := rfl

/-- A completed execution-order computation certifies that the dependency graph is
acyclic, and its output is duplicate-free, covers exactly the job names, and puts
every job strictly after each of its declared dependencies. -/
lemma getExecutionOrder_ok_spec {jobs : List Job} {fuel : Nat} {order : List String}
    (h : getExecutionOrder jobs fuel = some (.ok order)) :
    Acyclic jobs ∧ order.Nodup ∧ (∀ n, n ∈ order ↔ n ∈ jobs.map Job.name) ∧
    (∀ n ∈ order, ∀ job, findJob jobs n = some job →
      ∀ d ∈ job.depends_on, d ∈ order ∧ order.indexOf d < order.indexOf n) := by
  rw [getExecutionOrder_eq] at h
  cases hvl : visitList (visit jobs fuel) ⟨[], []⟩ (jobs.map Job.name) with
  | none => rw [hvl] at h; exact absurd h (by simp)
  | some r =>
    cases r with
    | error e => rw [hvl] at h; exact absurd h (by simp)
    | ok s =>
      rw [hvl] at h
      obtain rfl : s.ordered = order := by injection h with h'; injection h'
      obtain ⟨hallacc, hnamesvis⟩ :=
        visitList_acc_of (fun a b c hc h' => visit_acc_spec fuel a b c hc h')
          (fun a b c hc => visit_mem_visited hc)
          (fun a b c hc => visit_visitedExt fuel a b c hc)
          (jobs.map Job.name) ⟨[], []⟩ s (by simp) hvl
      have hacyc : Acyclic jobs := by
        intro n
        cases hfind : findJob jobs n with
        | some job =>
          exact hallacc n (hnamesvis n (findJob_isSome_iff.mp (by rw [hfind]; rfl)))
        | none =>
          constructor
          intro y hy
          obtain ⟨job, hfind', _⟩ := hy
          rw [hfind] at hfind'
          exact absurd hfind' (by simp)
      obtain ⟨hsgood, _, hnamesvis', _⟩ :=
        visitList_ok_spec_of (visit_ok_spec jobs fuel) (jobs.map Job.name)
          ⟨[], []⟩ s goodState_init (fun d _ => hacyc d) hvl
      refine ⟨hacyc, hsgood.nodup, ?_, hsgood.deps_before⟩
      intro n
      constructor
      · intro hn
        exact findJob_isSome_iff.mp (hsgood.present n hn)
      · intro hn
        exact (hsgood.mem_iff n).mp (hnamesvis' n hn)

/-- An acyclic dependency graph makes the traversal terminate with some outcome. -/
lemma getExecutionOrder_total {jobs : List Job} (hacyc : Acyclic jobs) :
    ∃ fuel r, getExecutionOrder jobs fuel = some r := by
  have hds : ∀ d ∈ jobs.map Job.name, ∀ s : VisitState,
      ∃ fuel r, visit jobs fuel s d = some r :=
    fun d _ s => visit_total (hacyc d) s
  obtain ⟨fuel, r, hr⟩ := visitList_total_of hds ⟨[], []⟩
  cases r with
  | error e => exact ⟨fuel, .error e, by rw [getExecutionOrder_eq, hr]⟩
  | ok s => exact ⟨fuel, .ok s.ordered, by rw [getExecutionOrder_eq, hr]⟩

/-- With an acyclic graph and all dependencies present, the traversal terminates
successfully. -/
lemma getExecutionOrder_ok_of_acyclic {jobs : List Job} (hacyc : Acyclic jobs)
    (hdp : AllDepsPresent jobs) :
    ∃ fuel order, getExecutionOrder jobs fuel = some (.ok order) := by
  obtain ⟨fuel, r, hr⟩ := getExecutionOrder_total hacyc
  cases r with
  | ok order => exact ⟨fuel, order, hr⟩
  | error e =>
    exfalso
    rw [getExecutionOrder_eq] at hr
    cases hvl : visitList (visit jobs fuel) ⟨[], []⟩ (jobs.map Job.name) with
    | none => rw [hvl] at hr; exact absurd hr (by simp)
    | some r' =>
      cases r' with
      | ok s => rw [hvl] at hr; exact absurd hr (by simp)
      | error e' =>
        exact visitList_ne_error_of (visit_ne_error hdp fuel) (jobs.map Job.name)
          ⟨[], []⟩ (fun d hd => findJob_isSome_iff.mpr hd) e' hvl

/-- A dependency cycle among present jobs makes the traversal diverge: it runs out
of any amount of fuel and never returns or raises. -/
lemma getExecutionOrder_diverge {jobs : List Job} (hdp : AllDepsPresent jobs)
    (hcyc : ∃ n, Relation.TransGen (DependsOn jobs) n n) :
    ∀ fuel, getExecutionOrder jobs fuel = none := by
  obtain ⟨n₀, htg⟩ := hcyc
  have hnacc : ¬ Acc (DependsOn jobs) n₀ :=
    fun hacc => acc_not_transGen_self hacc htg
  have hmem : n₀ ∈ jobs.map Job.name := by
    have hsome : (findJob jobs n₀).isSome := by
      cases htg with
      | single h => obtain ⟨job, hfind, _⟩ := h; rw [hfind]; rfl
      | tail _ h => obtain ⟨job, hfind, _⟩ := h; rw [hfind]; rfl
    exact findJob_isSome_iff.mp hsome
  intro fuel
  rw [getExecutionOrder_eq,
    visitList_diverge_of hdp fuel (visit_diverge hdp fuel) (jobs.map Job.name)
      ⟨[], []⟩ (by simp) (fun d hd => findJob_isSome_iff.mpr hd) ⟨n₀, hmem, hnacc⟩]

/-- In a duplicate-free order whose entries respect direct dependencies, every
transitive dependency also comes strictly earlier. -/
lemma order_trans_before {jobs : List Job} {order : List String}
    (hdeps : ∀ n ∈ order, ∀ job, findJob jobs n = some job →
      ∀ d ∈ job.depends_on, d ∈ order ∧ order.indexOf d < order.indexOf n) :
    ∀ j d, Relation.TransGen (DependsOn jobs) d j → j ∈ order →
      d ∈ order ∧ order.indexOf d < order.indexOf j := by
  intro j d htg
  induction htg with
  | single h =>
    intro hj
    obtain ⟨job, hfind, hd⟩ := h
    exact hdeps _ hj job hfind d hd
  | tail hdb hbj ih =>
    intro hj
    obtain ⟨job, hfind, hb⟩ := hbj
    obtain ⟨hbmem, hblt⟩ := hdeps _ hj job hfind _ hb
    obtain ⟨hdmem, hdlt⟩ := ih hbmem
    exact ⟨hdmem, hdlt.trans hblt⟩

/-! Lemmas about `Job.execute` and the branches of the run loop. -/

lemma execute_name (job : Job) (ctx : Ctx) (clock : Nat) :
    (job.execute ctx clock).1.name = job.name := by
  unfold Job.execute
  cases job.func job.params ctx <;> rfl

lemma execute_ok_spec {job : Job} {ctx : Ctx} {clock : Nat} {newJob : Job}
    {clock2 : Nat} {v : Value}
    (h : job.execute ctx clock = (newJob, clock2, .ok v)) :
    newJob = { job with status := JobStatus.success, result := some v,
                        start_time := some clock, end_time := some (clock + 1) } ∧
    clock2 = clock + 2 ∧ job.func job.params ctx = .ok v := by
  unfold Job.execute at h
  cases hfo : job.func job.params ctx with
  | ok v' =>
    rw [hfo] at h
    obtain ⟨h1, h2⟩ := Prod.mk.injEq .. |>.mp h
    obtain ⟨h3, h4⟩ := Prod.mk.injEq .. |>.mp h2
    obtain rfl : v' = v := by injection h4
    exact ⟨h1.symm, h3.symm, rfl⟩
  | error e' =>
    rw [hfo] at h
    obtain ⟨_, h2⟩ := Prod.mk.injEq .. |>.mp h
    obtain ⟨_, h4⟩ := Prod.mk.injEq .. |>.mp h2
    exact absurd h4 (by simp)

lemma execute_error_spec {job : Job} {ctx : Ctx} {clock : Nat} {newJob : Job}
    {clock2 : Nat} {e : String}
    (h : job.execute ctx clock = (newJob, clock2, .error e)) :
    newJob = { job with status := JobStatus.failed, error := some e,
                        start_time := some clock, end_time := some (clock + 1) } ∧
    clock2 = clock + 2 ∧ job.func job.params ctx = .error e := by
  unfold Job.execute at h
  cases hfo : job.func job.params ctx with
  | error e' =>
    rw [hfo] at h
    obtain ⟨h1, h2⟩ := Prod.mk.injEq .. |>.mp h
    obtain ⟨h3, h4⟩ := Prod.mk.injEq .. |>.mp h2
    obtain rfl : e' = e := by injection h4
    exact ⟨h1.symm, h3.symm, rfl⟩
  | ok v' =>
    rw [hfo] at h
    obtain ⟨_, h2⟩ := Prod.mk.injEq .. |>.mp h
    obtain ⟨_, h4⟩ := Prod.mk.injEq .. |>.mp h2
    exact absurd h4 (by simp)

lemma findJob_updateJob_isSome {jobs : List Job} {n m : String} {newJob : Job}
    (hname : newJob.name = n) :
    (findJob (updateJob jobs n newJob) m).isSome = (findJob jobs m).isSome := by
  by_cases h : (findJob jobs m).isSome
  · rw [h]
    rw [findJob_isSome_iff] at h ⊢
    rwa [updateJob_map_name hname]
  · rw [Bool.eq_false_iff.mpr h]
    rw [Bool.eq_false_iff]
    intro hcon
    rw [findJob_isSome_iff, updateJob_map_name hname, ← findJob_isSome_iff] at hcon
    exact h hcon

lemma runJobs_nil (st : RunState) : runJobs [] st = (st, .ok ()) := rfl

lemma runJobs_cons_notfound {st : RunState} {n : String} {rest : List String}
    (h : findJob st.jobs n = none) :
    runJobs (n :: rest) st = (st, .error s!"KeyError: {n}") := by
  rw [runJobs]
  simp only [h]

lemma runJobs_cons_deps_error {st : RunState} {n : String} {rest : List String}
    {job : Job} {e : String} (hjob : findJob st.jobs n = some job)
    (hcd : checkDeps st.jobs job.depends_on = .error e) :
    runJobs (n :: rest) st = (st, .error e) := by
  rw [runJobs]
  simp only [hjob, hcd]

lemma runJobs_cons_skip {st : RunState} {n : String} {rest : List String}
    {job : Job} (hjob : findJob st.jobs n = some job)
    (hcd : checkDeps st.jobs job.depends_on = .ok false) :
    runJobs (n :: rest) st =
      runJobs rest
        { st with jobs := updateJob st.jobs n { job with status := JobStatus.skipped } } := by
  rw [runJobs]
  simp only [hjob, hcd]

lemma runJobs_cons_exec_ok {st : RunState} {n : String} {rest : List String}
    {job newJob : Job} {clock2 : Nat} {v : Value}
    (hjob : findJob st.jobs n = some job)
    (hcd : checkDeps st.jobs job.depends_on = .ok true)
    (hex : job.execute st.context st.clock = (newJob, clock2, .ok v)) :
    runJobs (n :: rest) st =
      runJobs rest
        { jobs := updateJob st.jobs n newJob,
          context := setVal st.context (resultKey n) v,
          clock := clock2,
          writes := st.writes ++ [(resultKey n, v)] } := by
  rw [runJobs]
  simp only [hjob, hcd, hex]

lemma runJobs_cons_exec_error {st : RunState} {n : String} {rest : List String}
    {job newJob : Job} {clock2 : Nat} {e : String}
    (hjob : findJob st.jobs n = some job)
    (hcd : checkDeps st.jobs job.depends_on = .ok true)
    (hex : job.execute st.context st.clock = (newJob, clock2, .error e)) :
    runJobs (n :: rest) st =
      ({ st with jobs := updateJob st.jobs n newJob, clock := clock2 }, .error e) := by
  rw [runJobs]
  simp only [hjob, hcd, hex]

/-- When the run loop aborts with an exception, the loop position splits the order
into jobs already processed, the failing job — recorded `Failed` with the raised
error — and jobs never reached, whose dict entries are untouched. -/
lemma runJobs_error_spec :
    ∀ (rest : List String) (st st' : RunState) (e : String),
      rest.Nodup →
      (∀ m ∈ rest, (findJob st.jobs m).isSome) →
      (∀ m ∈ rest, ∀ job, findJob st.jobs m = some job → ∀ d ∈ job.depends_on,
        (findJob st.jobs d).isSome) →
      runJobs rest st = (st', .error e) →
      ∃ l₁ n l₂ jf, rest = l₁ ++ n :: l₂ ∧ findJob st'.jobs n = some jf ∧
        jf.status = JobStatus.failed ∧ jf.error = some e ∧
        ∀ m ∈ l₂, findJob st'.jobs m = findJob st.jobs m := by
  intro rest
  induction rest with
  | nil =>
    intro st st' e _ _ _ hrun
    rw [runJobs_nil] at hrun
    obtain ⟨_, h2⟩ := Prod.mk.injEq .. |>.mp hrun
    exact absurd h2 (by simp)
  | cons n rest ih =>
    intro st st' e hnodup hpres hdeps hrun
    obtain ⟨hnr, hnodup'⟩ := List.nodup_cons.mp hnodup
    obtain ⟨job, hjob⟩ := Option.isSome_iff_exists.mp (hpres n (by simp))
    have hjname : job.name = n := (findJob_eq_some hjob).2
    cases hcd : checkDeps st.jobs job.depends_on with
    | error e' =>
      exact absurd hcd (checkDeps_ne_error (hdeps n (by simp) job hjob) e')
    | ok b =>
      cases b with
      | false =>
        rw [runJobs_cons_skip hjob hcd] at hrun
        set st₂ : RunState :=
          { st with jobs := updateJob st.jobs n { job with status := JobStatus.skipped } }
          with hst₂
        have hskname : ({ job with status := JobStatus.skipped } : Job).name = n := hjname
        have hunch : ∀ m ∈ rest, findJob st₂.jobs m = findJob st.jobs m := by
          intro m hm
          exact findJob_updateJob_ne (fun hmn => hnr (hmn ▸ hm)) hskname
        obtain ⟨l₁, n', l₂, jf, hsplit, hfind', hst, herr, hrest⟩ :=
          ih st₂ st' e hnodup'
            (fun m hm => by rw [hunch m hm]; exact hpres m (by simp [hm]))
            (fun m hm job' hjob' d hd => by
              rw [hunch m hm] at hjob'
              have := hdeps m (by simp [hm]) job' hjob' d hd
              rw [← findJob_updateJob_isSome hskname] at this
              exact this)
            hrun
        refine ⟨n :: l₁, n', l₂, jf, by simp [hsplit], hfind', hst, herr, ?_⟩
        intro m hm
        rw [hrest m hm]
        exact hunch m (by rw [hsplit]; exact List.mem_append_right _ (by simp [hm]))
      | true =>
        cases hex : job.execute st.context st.clock with
        | mk newJob rest' =>
          obtain ⟨clock2, outcome⟩ := rest'
          have hnname : newJob.name = n := by
            have := execute_name job st.context st.clock
            rw [hex] at this
            exact hjname ▸ this
          cases outcome with
          | ok v =>
            rw [runJobs_cons_exec_ok hjob hcd hex] at hrun
            set st₂ : RunState :=
              { jobs := updateJob st.jobs n newJob,
                context := setVal st.context (resultKey n) v,
                clock := clock2,
                writes := st.writes ++ [(resultKey n, v)] } with hst₂
            have hunch : ∀ m ∈ rest, findJob st₂.jobs m = findJob st.jobs m := by
              intro m hm
              exact findJob_updateJob_ne (fun hmn => hnr (hmn ▸ hm)) hnname
            obtain ⟨l₁, n', l₂, jf, hsplit, hfind', hst, herr, hrest⟩ :=
              ih st₂ st' e hnodup'
                (fun m hm => by rw [hunch m hm]; exact hpres m (by simp [hm]))
                (fun m hm job' hjob' d hd => by
                  rw [hunch m hm] at hjob'
                  have := hdeps m (by simp [hm]) job' hjob' d hd
                  rw [← findJob_updateJob_isSome hnname] at this
                  exact this)
                hrun
            refine ⟨n :: l₁, n', l₂, jf, by simp [hsplit], hfind', hst, herr, ?_⟩
            intro m hm
            rw [hrest m hm]
            exact hunch m (by rw [hsplit]; exact List.mem_append_right _ (by simp [hm]))
          | error e' =>
            rw [runJobs_cons_exec_error hjob hcd hex] at hrun
            obtain ⟨h1, h2⟩ := Prod.mk.injEq .. |>.mp hrun
            obtain rfl : e' = e := by injection h2
            obtain ⟨hnewJob, _, _⟩ := execute_error_spec hex
            refine ⟨[], n, rest, newJob, rfl, ?_, ?_, ?_, ?_⟩
            · rw [← h1]
              exact findJob_updateJob_self hjob hnname
            · rw [hnewJob]
            · rw [hnewJob]
            · intro m hm
              rw [← h1]
              exact findJob_updateJob_ne (fun hmn => hnr (hmn ▸ hm)) hnname

/-- Master invariant of `Pipeline.run`'s loop on a fresh (all-`Pending`) pipeline
iterated over a topologically sorted order: pending jobs stay gated-in (never
`Skipped`), a clean loop leaves every job `Success`, and every successful job has
its result written to the context exactly once, under its reserved key. -/
lemma runJobs_pending_spec :
    ∀ (rest : List String) (st : RunState),
      rest.Nodup →
      (∀ m ∈ rest, (findJob st.jobs m).isSome) →
      (∀ m ∈ rest, ∀ job, findJob st.jobs m = some job → ∀ d ∈ job.depends_on,
        (findJob st.jobs d).isSome ∧ (d ∈ rest → rest.indexOf d < rest.indexOf m)) →
      (∀ j ∈ st.jobs,
        (j.name ∈ rest → j.status = JobStatus.pending ∧
          st.writes.filter (fun w => w.1 == resultKey j.name) = []) ∧
        (j.name ∉ rest → j.status = JobStatus.success ∧ ∃ v, j.result = some v ∧
          st.writes.filter (fun w => w.1 == resultKey j.name) = [(resultKey j.name, v)])) →
      (∀ j ∈ (runJobs rest st).1.jobs,
        j.status = JobStatus.pending ∨ j.status = JobStatus.success ∨
        j.status = JobStatus.failed) ∧
      ((runJobs rest st).2 = .ok () → ∀ j ∈ (runJobs rest st).1.jobs,
        j.status = JobStatus.success) ∧
      (∀ j ∈ (runJobs rest st).1.jobs, j.status = JobStatus.success →
        ∃ v, j.result = some v ∧
          (runJobs rest st).1.writes.filter (fun w => w.1 == resultKey j.name) =
            [(resultKey j.name, v)]) := by
  intro rest
  induction rest with
  | nil =>
    intro st _ _ _ hstat
    rw [runJobs_nil]
    refine ⟨?_, ?_, ?_⟩
    · intro j hj
      exact Or.inr (Or.inl ((hstat j hj).2 (by simp)).1)
    · intro _ j hj
      exact ((hstat j hj).2 (by simp)).1
    · intro j hj _
      exact ((hstat j hj).2 (by simp)).2
  | cons n rest ih =>
    intro st hnodup hpres hdeps hstat
    obtain ⟨hnr, hnodup'⟩ := List.nodup_cons.mp hnodup
    obtain ⟨job, hjob⟩ := Option.isSome_iff_exists.mp (hpres n (by simp))
    have hjname : job.name = n := (findJob_eq_some hjob).2
    have hjmem : job ∈ st.jobs := (findJob_eq_some hjob).1
    have hgate : checkDeps st.jobs job.depends_on = .ok true := by
      apply checkDeps_ok_true
      intro d hd
      obtain ⟨hdsome, hdidx⟩ := hdeps n (by simp) job hjob d hd
      obtain ⟨jd, hjd⟩ := Option.isSome_iff_exists.mp hdsome
      have hdnotin : d ∉ (n :: rest) := by
        intro hdin
        have h0 := hdidx hdin
        rw [List.indexOf_cons_self] at h0
        omega
      have hjdname : jd.name = d := (findJob_eq_some hjd).2
      have hjdmem : jd ∈ st.jobs := (findJob_eq_some hjd).1
      exact ⟨jd, hjd, ((hstat jd hjdmem).2 (by rwa [hjdname])).1⟩
    cases hex : job.execute st.context st.clock with
    | mk newJob pr =>
      obtain ⟨clock2, outcome⟩ := pr
      have hnname : newJob.name = n := by
        have h0 := execute_name job st.context st.clock
        rw [hex] at h0
        exact hjname ▸ h0
      cases outcome with
      | ok v =>
        rw [runJobs_cons_exec_ok hjob hgate hex]
        obtain ⟨hnewJob, _, _⟩ := execute_ok_spec hex
        apply ih
        · exact hnodup'
        · intro m hm
          rw [show findJob (updateJob st.jobs n newJob) m = findJob st.jobs m from
            findJob_updateJob_ne (fun hmn => hnr (hmn ▸ hm)) hnname]
          exact hpres m (by simp [hm])
        · intro m hm job' hjob' d hd
          rw [show findJob (updateJob st.jobs n newJob) m = findJob st.jobs m from
            findJob_updateJob_ne (fun hmn => hnr (hmn ▸ hm)) hnname] at hjob'
          obtain ⟨hdsome, hdidx⟩ := hdeps m (by simp [hm]) job' hjob' d hd
          constructor
          · rw [show (findJob (updateJob st.jobs n newJob) d).isSome =
              (findJob st.jobs d).isSome from findJob_updateJob_isSome hnname]
            exact hdsome
          · intro hdin
            have hdn : d ≠ n := fun hdn => hnr (hdn ▸ hdin)
            have hmn : m ≠ n := fun hmn => hnr (hmn ▸ hm)
            have h0 := hdidx (by simp [hdin])
            rw [List.indexOf_cons_ne _ (Ne.symm hdn),
              List.indexOf_cons_ne _ (Ne.symm hmn)] at h0
            omega
        · intro j hj
          rcases mem_updateJob hj with rfl | ⟨hjold, hjne⟩
          · constructor
            · intro hjin
              rw [hnname] at hjin
              exact absurd hjin hnr
            · intro _
              refine ⟨by rw [hnewJob], v, by rw [hnewJob], ?_⟩
              rw [List.filter_append, hnname]
              have hjstat := (hstat job hjmem).1 (by simp [hjname])
              rw [hjname] at hjstat
              rw [hjstat.2]
              simp
          · have hstatj := hstat j hjold
            constructor
            · intro hjin
              obtain ⟨hp, hw⟩ := hstatj.1 (by simp [hjin])
              refine ⟨hp, ?_⟩
              rw [List.filter_append, hw]
              have : (resultKey n == resultKey j.name) = false := by
                rw [beq_eq_false_iff_ne]
                intro hk
                exact hjne (resultKey_injective hk).symm
              simp [this]
            · intro hjnotin
              have hjnot : j.name ∉ (n :: rest) := by
                simp only [List.mem_cons, not_or]
                exact ⟨hjne, hjnotin⟩
              obtain ⟨hs, v', hv', hw⟩ := hstatj.2 hjnot
              refine ⟨hs, v', hv', ?_⟩
              rw [List.filter_append, hw]
              have : (resultKey n == resultKey j.name) = false := by
                rw [beq_eq_false_iff_ne]
                intro hk
                exact hjne (resultKey_injective hk).symm
              simp [this]
      | error e =>
        rw [runJobs_cons_exec_error hjob hgate hex]
        obtain ⟨hnewJob, _, _⟩ := execute_error_spec hex
        refine ⟨?_, ?_, ?_⟩
        · intro j hj
          rcases mem_updateJob hj with rfl | ⟨hjold, hjne⟩
          · exact Or.inr (Or.inr (by rw [hnewJob]))
          · by_cases hjin : j.name ∈ rest
            · exact Or.inl ((hstat j hjold).1 (by simp [hjin])).1
            · exact Or.inr (Or.inl ((hstat j hjold).2
                (by simp only [List.mem_cons, not_or]; exact ⟨hjne, hjin⟩)).1)
        · intro hcon
          exact absurd hcon (by simp)
        · intro j hj hsucc
          rcases mem_updateJob hj with rfl | ⟨hjold, hjne⟩
          · rw [hnewJob] at hsucc
            exact absurd hsucc (by simp)
          · by_cases hjin : j.name ∈ rest
            · have := ((hstat j hjold).1 (by simp [hjin])).1
              rw [this] at hsucc
              exact absurd hsucc (by simp)
            · exact ((hstat j hjold).2
                (by simp only [List.mem_cons, not_or]; exact ⟨hjne, hjin⟩)).2

/-! Branch lemmas for `Pipeline.run` and `run_all_pipelines`. -/

lemma run_order_none {p : Pipeline} {fuel : Nat} {init : Option Ctx} {clock : Nat}
    (h : getExecutionOrder p.jobs fuel = none) :
    p.run fuel init clock = none := by
  unfold Pipeline.run
  rw [h]

lemma run_order_error {p : Pipeline} {fuel : Nat} {init : Option Ctx} {clock : Nat}
    {e : String} (h : getExecutionOrder p.jobs fuel = some (.error e)) :
    p.run fuel init clock =
      some ({ p with context := runInitialContext p init }, clock, [], .error e) := by
  unfold Pipeline.run
  rw [h]

lemma run_order_ok {p : Pipeline} {fuel : Nat} {init : Option Ctx} {clock : Nat}
    {order : List String} (h : getExecutionOrder p.jobs fuel = some (.ok order)) :
    p.run fuel init clock =
      some ({ p with jobs := (runJobs order (runLoopState p init clock)).1.jobs,
                     context := (runJobs order (runLoopState p init clock)).1.context },
        (runJobs order (runLoopState p init clock)).1.clock,
        (runJobs order (runLoopState p init clock)).1.writes,
        match (runJobs order (runLoopState p init clock)).2 with
        | .ok _ => .ok (runJobs order (runLoopState p init clock)).1.context
        | .error e => .error e) := by
  unfold Pipeline.run
  rw [h]
  rfl

lemma run_all_pipelines_eq (c : ProcessController) (fuel : Nat) (ctx : Option Ctx)
    (clock : Nat) :
    c.run_all_pipelines fuel ctx clock =
      match runAllAux fuel ctx c.pipelines clock with
      | none => none
      | some (results, ps, clockEnd) =>
          some (results, { pipelines := ps }, clockEnd) := rfl

lemma runAllAux_isSome {fuel : Nat} {ctx : Option Ctx} :
    ∀ (ps : List Pipeline) (clock : Nat),
      (∀ p ∈ ps, ∀ clk, (p.run fuel ctx clk).isSome) →
      (runAllAux fuel ctx ps clock).isSome := by
  intro ps
  induction ps with
  | nil =>
    intro clock _
    rw [show runAllAux fuel ctx [] clock = some ([], [], clock) from rfl]
    rfl
  | cons p rest ih =>
    intro clock hall
    obtain ⟨q, hq⟩ := Option.isSome_iff_exists.mp (hall p (by simp) clock)
    obtain ⟨p', clock', w, outcome⟩ := q
    obtain ⟨q₂, hq₂⟩ :=
      Option.isSome_iff_exists.mp (ih clock' (fun r hr clk => hall r (by simp [hr]) clk))
    obtain ⟨entries, ps', clockEnd⟩ := q₂
    rw [runAllAux]
    simp only [hq, hq₂]
    cases outcome <;> rfl

lemma runAllAux_spec {fuel : Nat} {ctx : Option Ctx} :
    ∀ (ps : List Pipeline) (clock : Nat) (results : List (String × Ctx))
      (ps' : List Pipeline) (clockEnd : Nat),
      runAllAux fuel ctx ps clock = some (results, ps', clockEnd) →
      results.map Prod.fst = ps.map Pipeline.name ∧
      (∀ (i : Nat) (p : Pipeline), ps[i]? = some p →
        ∃ clk p' clk' w outcome, p.run fuel ctx clk = some (p', clk', w, outcome) ∧
          results[i]? = some (p.name,
            match outcome with
            | .ok fctx => fctx
            | .error e => [("error", Value.str e)])) := by
  intro ps
  induction ps with
  | nil =>
    intro clock results ps' clockEnd h
    rw [show runAllAux fuel ctx [] clock = some ([], [], clock) from rfl] at h
    obtain rfl : results = [] := by
      injection h with h'
      exact ((Prod.mk.injEq .. |>.mp h').1).symm
    exact ⟨rfl, fun i p hp => absurd hp (by simp)⟩
  | cons p rest ih =>
    intro clock results ps' clockEnd h
    rw [runAllAux] at h
    cases hrun : p.run fuel ctx clock with
    | none => rw [hrun] at h; exact absurd h (by simp)
    | some q =>
      obtain ⟨p', clock', w, outcome⟩ := q
      simp only [hrun] at h
      cases hrec : runAllAux fuel ctx rest clock' with
      | none => rw [hrec] at h; exact absurd h (by simp)
      | some q₂ =>
        obtain ⟨entries, ps'', clockEnd'⟩ := q₂
        rw [hrec] at h
        obtain ⟨hmap, hentries⟩ := ih clock' entries ps'' clockEnd' hrec
        cases outcome with
        | ok fctx =>
          obtain rfl : results = (p.name, fctx) :: entries := by
            injection h with h'
            exact ((Prod.mk.injEq .. |>.mp h').1).symm
          constructor
          · simp only [List.map_cons, hmap]
          · intro i pp hp
            cases i with
            | zero =>
              rw [List.getElem?_cons_zero] at hp
              obtain rfl : p = pp := by injection hp
              exact ⟨clock, p', clock', w, .ok fctx, hrun, by rw [List.getElem?_cons_zero]⟩
            | succ i =>
              rw [List.getElem?_cons_succ] at hp
              obtain ⟨clk, pp', clk', ww, oo, hr, he⟩ := hentries i pp hp
              exact ⟨clk, pp', clk', ww, oo, hr, by rw [List.getElem?_cons_succ]; exact he⟩
        | error e =>
          obtain rfl : results = (p.name, [("error", Value.str e)]) :: entries := by
            injection h with h'
            exact ((Prod.mk.injEq .. |>.mp h').1).symm
          constructor
          · simp only [List.map_cons, hmap]
          · intro i pp hp
            cases i with
            | zero =>
              rw [List.getElem?_cons_zero] at hp
              obtain rfl : p = pp := by injection hp
              exact ⟨clock, p', clock', w, .error e, hrun, by rw [List.getElem?_cons_zero]⟩
            | succ i =>
              rw [List.getElem?_cons_succ] at hp
              obtain ⟨clk, pp', clk', ww, oo, hr, he⟩ := hentries i pp hp
              exact ⟨clk, pp', clk', ww, oo, hr, by rw [List.getElem?_cons_succ]; exact he⟩

/-! Lemmas about the status summary. -/

lemma total_duration_foldl (l : List Job) (acc : Nat) :
    l.foldl (fun acc job =>
      match job.get_duration with
      | some d => if d == 0 then acc else acc + d
      | none => acc) acc = acc + (l.map durOrZero).sum := by
  induction l generalizing acc with
  | nil => simp
  | cons j l ih =>
    rw [List.foldl_cons, List.map_cons, List.sum_cons, ih]
    cases hd : j.get_duration with
    | none =>
      simp [durOrZero, hd]
    | some d =>
      by_cases hd0 : d = 0
      · subst hd0
        simp [durOrZero, hd]
      · simp only [durOrZero, hd, Option.getD_some,
          show (d == 0) = false by simp [hd0], Bool.false_eq_true, if_false]
        omega

lemma jobStatus_beq (a b : JobStatus) : (a == b) = decide (a = b) := by
  cases a <;> cases b <;> rfl

lemma sum_status_counts (jobs : List Job) :
    (JobStatus.all.map
      (fun st => (jobs.filter (fun j => j.status == st)).length)).sum = jobs.length := by
  induction jobs with
  | nil => rfl
  | cons j l ih =>
    simp only [JobStatus.all, List.map_cons, List.map_nil, List.sum_cons, List.sum_nil,
      List.filter_cons, jobStatus_beq] at ih ⊢
    cases hst : j.status <;> simp [hst] <;> omega

/-! Facts about the concrete example pipelines. -/

lemma exPipe_acyclic : Acyclic exPipe.jobs := by
  apply acyclic_of_ranked (fun n => if n = "double" then 1 else 0)
  intro d n hdep
  obtain ⟨job, hfind, hd⟩ := hdep
  obtain ⟨hmem, hname⟩ := findJob_eq_some hfind
  rcases List.mem_cons.mp hmem with rfl | hmem
  · simp [exLoad] at hd
  · rcases List.mem_cons.mp hmem with rfl | hmem
    · obtain rfl : d = "load" := by simpa [exDouble] using hd
      subst hname
      simp [exDouble]
    · simp [exPipe] at hmem

lemma missPipe_acyclic : Acyclic missPipe.jobs := by
  apply acyclic_of_ranked (fun n => if n = "c" then 1 else 0)
  intro d n hdep
  obtain ⟨job, hfind, hd⟩ := hdep
  obtain ⟨hmem, hname⟩ := findJob_eq_some hfind
  rcases List.mem_cons.mp hmem with rfl | hmem
  · obtain rfl : d = "zz" := by simpa [missC] using hd
    subst hname
    simp [missC]
  · simp [missPipe] at hmem

lemma cycMiss_visit_none :
    ∀ (fuel : Nat) (s : VisitState), "a" ∉ s.visited → "b" ∉ s.visited →
      visit cycMissJobs fuel s "a" = none ∧ visit cycMissJobs fuel s "b" = none := by
  intro fuel
  induction fuel with
  | zero => intro s _ _; exact ⟨visit_zero, visit_zero⟩
  | succ fuel ih =>
    intro s ha hb
    constructor
    · rw [visit_succ_of_found ha (show findJob cycMissJobs "a" = some cycA from rfl)]
      rw [show cycA.depends_on = ["b"] from rfl, visitList_cons, (ih s ha hb).2]
    · rw [visit_succ_of_found hb (show findJob cycMissJobs "b" = some cycB from rfl)]
      rw [show cycB.depends_on = ["a"] from rfl, visitList_cons, (ih s ha hb).1]

lemma cycMiss_diverges : ∀ fuel, getExecutionOrder cycMissJobs fuel = none := by
  intro fuel
  rw [getExecutionOrder_eq]
  rw [show cycMissJobs.map Job.name = ["a", "b", "c"] from rfl]
  rw [visitList_cons, (cycMiss_visit_none fuel ⟨[], []⟩ (by simp) (by simp)).1]

/-- C1: on a pipeline whose dependency graph is acyclic and whose every
`depends_on` entry names a present job, `get_execution_order()` returns a list in
which each job name appears exactly once and each job appears strictly after all
of its direct and transitive dependencies. -/
theorem execution_order_topological (p : Pipeline)
    (hacyc : Acyclic p.jobs) (hdp : AllDepsPresent p.jobs) :
    ∃ fuel order, getExecutionOrder p.jobs fuel = some (.ok order) ∧
      (∀ n, n ∈ order ↔ n ∈ p.jobs.map Job.name) ∧
      (∀ n ∈ p.jobs.map Job.name, order.count n = 1) ∧
      (∀ j d, Relation.TransGen (DependsOn p.jobs) d j → j ∈ order →
        d ∈ order ∧ order.indexOf d < order.indexOf j) := by
  obtain ⟨fuel, order, h⟩ := getExecutionOrder_ok_of_acyclic hacyc hdp
  obtain ⟨_, hnodup, hmem, hdeps⟩ := getExecutionOrder_ok_spec h
  refine ⟨fuel, order, h, hmem, ?_, ?_⟩
  · intro n hn
    exact List.count_eq_one_of_mem hnodup ((hmem n).mpr hn)
  · exact fun j d htg hj => order_trans_before hdeps j d htg hj

/-- Witness for C1 at the `{load, double→[load]}` pipeline. -/
theorem execution_order_topological_witness :
    AllDepsPresent exPipe.jobs ∧
    ∃ fuel order, getExecutionOrder exPipe.jobs fuel = some (.ok order) ∧
      (∀ n, n ∈ order ↔ n ∈ exPipe.jobs.map Job.name) ∧
      (∀ n ∈ exPipe.jobs.map Job.name, order.count n = 1) ∧
      (∀ j d, Relation.TransGen (DependsOn exPipe.jobs) d j → j ∈ order →
        d ∈ order ∧ order.indexOf d < order.indexOf j) :=
  ⟨by unfold AllDepsPresent; decide,
   execution_order_topological exPipe exPipe_acyclic (by unfold AllDepsPresent; decide)⟩

/-- C3: `get_execution_order()` terminates (with a successful result) on every
pipeline whose dependency graph is acyclic with all dependencies present, while on
a dependency cycle the recursive visit exhausts every amount of fuel — it never
terminates, and in particular never raises a `CyclicDependency` condition. -/
theorem execution_order_termination :
    (∀ jobs : List Job, Acyclic jobs → AllDepsPresent jobs →
      ∃ fuel order, getExecutionOrder jobs fuel = some (.ok order)) ∧
    (∀ jobs : List Job, AllDepsPresent jobs →
      (∃ n, Relation.TransGen (DependsOn jobs) n n) →
      ∀ fuel, getExecutionOrder jobs fuel = none) :=
  ⟨fun _ ha hd => getExecutionOrder_ok_of_acyclic ha hd,
   fun _ hd hc fuel => getExecutionOrder_diverge hd hc fuel⟩

/-- Witness for C3: the acyclic example terminates; the two-job cycle `a↔b`
exhausts fuel 5 (and any other amount). -/
theorem execution_order_termination_witness :
    AllDepsPresent cycJobs ∧
    (∃ fuel order, getExecutionOrder exPipe.jobs fuel = some (.ok order)) ∧
    getExecutionOrder cycJobs 5 = none := by
  have h1 : DependsOn cycJobs "a" "b" := ⟨cycB, rfl, by simp [cycB]⟩
  have h2 : DependsOn cycJobs "b" "a" := ⟨cycA, rfl, by simp [cycA]⟩
  have hcyc : Relation.TransGen (DependsOn cycJobs) "a" "a" :=
    (Relation.TransGen.single h1).tail h2
  exact ⟨by unfold AllDepsPresent; decide,
    execution_order_termination.1 exPipe.jobs exPipe_acyclic (by unfold AllDepsPresent; decide),
    execution_order_termination.2 cycJobs (by unfold AllDepsPresent; decide) ⟨"a", hcyc⟩ 5⟩

/-- C5: `Job.execute` stamps `start_time` on entry and `end_time` on exit (so a
duration is always available once execution was attempted), records result and
`Success` when the callable returns, and records the stringified error and
`Failed` and re-raises when the callable raises. -/
theorem job_execute_spec (job : Job) (context : Ctx) (clock : Nat) :
    (job.execute context clock).1.start_time = some clock ∧
    (job.execute context clock).1.end_time = some (clock + 1) ∧
    ((job.execute context clock).1.get_duration).isSome ∧
    (∀ v, job.func job.params context = .ok v →
      (job.execute context clock).1.status = JobStatus.success ∧
      (job.execute context clock).1.result = some v ∧
      (job.execute context clock).2.2 = .ok v) ∧
    (∀ e, job.func job.params context = .error e →
      (job.execute context clock).1.status = JobStatus.failed ∧
      (job.execute context clock).1.error = some e ∧
      (job.execute context clock).2.2 = .error e) := by
  refine ⟨?_, ?_, ?_, ?_, ?_⟩
  · unfold Job.execute
    cases job.func job.params context <;> rfl
  · unfold Job.execute
    cases job.func job.params context <;> rfl
  · unfold Job.execute Job.get_duration
    cases job.func job.params context <;> rfl
  · intro v hv
    unfold Job.execute
    rw [hv]
    exact ⟨rfl, rfl, rfl⟩
  · intro e he
    unfold Job.execute
    rw [he]
    exact ⟨rfl, rfl, rfl⟩

/-- Witness for C5 at a succeeding and at a failing job. -/
theorem job_execute_spec_witness :
    ((exLoad.execute [] 7).1.get_duration).isSome ∧
    (exLoad.execute [] 7).1.status = JobStatus.success ∧
    (failJob.execute [] 7).1.status = JobStatus.failed ∧
    (failJob.execute [] 7).1.error = some "ValueError: boom" :=
  ⟨(job_execute_spec exLoad [] 7).2.2.1,
   ((job_execute_spec exLoad [] 7).2.2.2.1 (.dict [("x", .int 1)]) rfl).1,
   ((job_execute_spec failJob [] 7).2.2.2.2 "ValueError: boom" rfl).1,
   ((job_execute_spec failJob [] 7).2.2.2.2 "ValueError: boom" rfl).2.1⟩

/-- C8: `add_job` raises the `DuplicateJob` condition exactly when a job with the
same name is present — leaving the stored job untouched — and otherwise appends
the new job, after which a second add of the same name fails and the original
stays stored. -/
theorem add_job_spec (p : Pipeline) (job : Job) :
    ((findJob p.jobs job.name).isSome → ∃ e, p.add_job job = .error e) ∧
    (findJob p.jobs job.name = none →
      ∃ p', p.add_job job = .ok p' ∧ p'.jobs = p.jobs ++ [job] ∧
        findJob p'.jobs job.name = some job ∧
        ∀ job2 : Job, job2.name = job.name →
          (∃ e, p'.add_job job2 = .error e) ∧ findJob p'.jobs job.name = some job) := by
  constructor
  · intro h
    refine ⟨s!"Job {job.name} already exists in pipeline", ?_⟩
    unfold Pipeline.add_job
    rw [if_pos h]
  · intro h
    have hfound : findJob (p.jobs ++ [job]) job.name = some job := by
      unfold findJob at h ⊢
      rw [List.find?_append, h]
      rw [show ([job].find? fun j => j.name == job.name) = some job from
        List.find?_cons_of_pos _ (by simp)]
      rfl
    refine ⟨{ p with jobs := p.jobs ++ [job] }, ?_, rfl, hfound, ?_⟩
    · unfold Pipeline.add_job
      rw [if_neg (by rw [h]; simp)]
    · intro job2 hname2
      refine ⟨⟨s!"Job {job2.name} already exists in pipeline", ?_⟩, hfound⟩
      unfold Pipeline.add_job
      rw [if_pos (by rw [hname2]; simp only []; rw [hfound]; rfl)]

/-- Witness for C8: adding a second job named `load` to the one-job pipeline. -/
theorem add_job_spec_witness :
    (∃ e, okPipe.add_job exLoad = .error e) ∧
    (∃ p', (Pipeline.mk "empty" [] []).add_job exLoad = .ok p' ∧
      p'.jobs = [] ++ [exLoad] ∧ findJob p'.jobs exLoad.name = some exLoad ∧
      ∀ job2 : Job, job2.name = exLoad.name →
        (∃ e, p'.add_job job2 = .error e) ∧ findJob p'.jobs exLoad.name = some exLoad) :=
  ⟨(add_job_spec okPipe exLoad).1 (by decide),
   (add_job_spec (Pipeline.mk "empty" [] []) exLoad).2 rfl⟩

/-- C9: the summary's `total_duration` is the sum of the jobs' recorded durations
(absent durations contributing zero) and is invariant under permuting the jobs;
`total_jobs` is the job count and the per-status counts cover every job. -/
theorem status_summary_spec (p : Pipeline) :
    p.get_status_summary.total_duration = (p.jobs.map durOrZero).sum ∧
    (∀ q : Pipeline, p.jobs.Perm q.jobs →
      p.get_status_summary.total_duration = q.get_status_summary.total_duration) ∧
    p.get_status_summary.total_jobs = p.jobs.length ∧
    (p.get_status_summary.status_counts.map Prod.snd).sum = p.jobs.length ∧
    (∀ st : JobStatus,
      (st.value, (p.jobs.filter (fun j => j.status == st)).length) ∈
        p.get_status_summary.status_counts) := by
  have htot : ∀ r : Pipeline,
      r.get_status_summary.total_duration = (r.jobs.map durOrZero).sum := by
    intro r
    have h := total_duration_foldl r.jobs 0
    rw [Nat.zero_add] at h
    exact h
  refine ⟨htot p, ?_, rfl, ?_, ?_⟩
  · intro q hperm
    rw [htot p, htot q]
    exact (hperm.map durOrZero).sum_eq
  · rw [show p.get_status_summary.status_counts.map Prod.snd =
      JobStatus.all.map (fun st => (p.jobs.filter (fun j => j.status == st)).length) by
        rw [show p.get_status_summary.status_counts =
          JobStatus.all.map
            (fun st => (st.value, (p.jobs.filter (fun j => j.status == st)).length)) from rfl]
        rw [List.map_map]
        rfl]
    exact sum_status_counts p.jobs
  · intro st
    rw [show p.get_status_summary.status_counts =
      JobStatus.all.map
        (fun st => (st.value, (p.jobs.filter (fun j => j.status == st)).length)) from rfl]
    apply List.mem_map.mpr
    refine ⟨st, ?_, rfl⟩
    cases st <;> simp [JobStatus.all]

/-- Witness for C9: the total duration of the example pipeline is permutation
invariant under swapping its two jobs. -/
theorem status_summary_spec_witness :
    exPipe.get_status_summary.total_duration =
      (Pipeline.mk "swapped" [exDouble, exLoad] []).get_status_summary.total_duration ∧
    exPipe.get_status_summary.total_jobs = exPipe.jobs.length :=
  ⟨(status_summary_spec exPipe).2.1 (Pipeline.mk "swapped" [exDouble, exLoad] [])
      (List.Perm.swap exDouble exLoad []),
   (status_summary_spec exPipe).2.2.1⟩

/-- C2: a run over a fresh all-`Pending` pipeline with an acyclic, fully present
dependency graph never leaves any job `Skipped` — every job reached by the loop
has all dependencies `Success` (a clean run leaves every job `Success`), and a
raised failure aborts the run before any dependent job is reached. -/
theorem run_never_skips (p : Pipeline) (fuel : Nat) (init : Option Ctx) (clock : Nat)
    (p' : Pipeline) (clk : Nat) (w : List (String × Value)) (out : Except String Ctx)
    (hpend : ∀ j ∈ p.jobs, j.status = JobStatus.pending)
    (hacyc : Acyclic p.jobs) (hdp : AllDepsPresent p.jobs)
    (hrun : p.run fuel init clock = some (p', clk, w, out)) :
    (∀ j ∈ p'.jobs, j.status ≠ JobStatus.skipped) ∧
    (∀ ctx, out = .ok ctx → ∀ j ∈ p'.jobs, j.status = JobStatus.success) := by
  cases horder : getExecutionOrder p.jobs fuel with
  | none => rw [run_order_none horder] at hrun; exact absurd hrun (by simp)
  | some r =>
    cases r with
    | error e =>
      rw [run_order_error horder] at hrun
      have h' := Option.some.inj hrun
      obtain ⟨h1, h2⟩ := Prod.mk.injEq .. |>.mp h'
      obtain ⟨h3, h4⟩ := Prod.mk.injEq .. |>.mp h2
      obtain ⟨h5, h6⟩ := Prod.mk.injEq .. |>.mp h4
      constructor
      · intro j hj
        rw [← h1] at hj
        rw [hpend j hj]
        simp
      · intro ctx hctx
        rw [← h6] at hctx
        exact absurd hctx (by simp)
    | ok order =>
      rw [run_order_ok horder] at hrun
      obtain ⟨_, hnodup, hmem, hdeps⟩ := getExecutionOrder_ok_spec horder
      have hpres : ∀ m ∈ order, (findJob (runLoopState p init clock).jobs m).isSome :=
        fun m hm => findJob_isSome_iff.mpr ((hmem m).mp hm)
      have hdeps' : ∀ m ∈ order, ∀ job,
          findJob (runLoopState p init clock).jobs m = some job → ∀ d ∈ job.depends_on,
          (findJob (runLoopState p init clock).jobs d).isSome ∧
          (d ∈ order → order.indexOf d < order.indexOf m) := by
        intro m hm job hjob d hd
        obtain ⟨hdo, hlt⟩ := hdeps m hm job hjob d hd
        exact ⟨findJob_isSome_iff.mpr ((hmem d).mp hdo), fun _ => hlt⟩
      have hstat : ∀ j ∈ (runLoopState p init clock).jobs,
          (j.name ∈ order → j.status = JobStatus.pending ∧
            (runLoopState p init clock).writes.filter
              (fun x => x.1 == resultKey j.name) = []) ∧
          (j.name ∉ order → j.status = JobStatus.success ∧ ∃ v, j.result = some v ∧
            (runLoopState p init clock).writes.filter
              (fun x => x.1 == resultKey j.name) = [(resultKey j.name, v)]) := by
        intro j hj
        constructor
        · intro _
          exact ⟨hpend j hj, rfl⟩
        · intro hnot
          exact absurd ((hmem j.name).mpr (List.mem_map.mpr ⟨j, hj, rfl⟩)) hnot
      obtain ⟨hns, hok, _⟩ :=
        runJobs_pending_spec order (runLoopState p init clock) hnodup hpres hdeps' hstat
      have h' := Option.some.inj hrun
      obtain ⟨h1, h2⟩ := Prod.mk.injEq .. |>.mp h'
      obtain ⟨h3, h4⟩ := Prod.mk.injEq .. |>.mp h2
      obtain ⟨h5, h6⟩ := Prod.mk.injEq .. |>.mp h4
      constructor
      · intro j hj
        rw [← h1] at hj
        rcases hns j hj with h | h | h <;> rw [h] <;> simp
      · intro ctx hctx j hj
        rw [← h6] at hctx
        rw [← h1] at hj
        cases hres2 : (runJobs order (runLoopState p init clock)).2 with
        | ok u =>
          exact hok (by rw [hres2]) j hj
        | error e' =>
          rw [hres2] at hctx
          exact absurd hctx (by simp)

/-- Witness for C2 at a clean run of the example pipeline. -/
theorem run_never_skips_witness :
    ∃ p' clk w out, exPipe.run 10 none 0 = some (p', clk, w, out) ∧
      ∀ j ∈ p'.jobs, j.status ≠ JobStatus.skipped := by
  refine ⟨_, _, _, _, rfl, ?_⟩
  exact (run_never_skips exPipe 10 none 0 _ _ _ _ (by decide) exPipe_acyclic
    (by unfold AllDepsPresent; decide) rfl).1

/-- C4: when a job's callable raises during `run`, the exception propagates
uncaught out of `run`; the failing job is recorded `Failed` with that error, and
every job occurring strictly after it in the execution order keeps exactly the
dict entry (in particular the status) it held before the run. -/
theorem run_fail_fast (p : Pipeline) (fuel : Nat) (init : Option Ctx) (clock : Nat)
    (p' : Pipeline) (clk : Nat) (w : List (String × Value)) (e : String)
    (horder : ∃ order, getExecutionOrder p.jobs fuel = some (.ok order))
    (hrun : p.run fuel init clock = some (p', clk, w, .error e)) :
    ∃ order l₁ n l₂ jf, getExecutionOrder p.jobs fuel = some (.ok order) ∧
      order = l₁ ++ n :: l₂ ∧ findJob p'.jobs n = some jf ∧
      jf.status = JobStatus.failed ∧ jf.error = some e ∧
      ∀ m ∈ l₂, findJob p'.jobs m = findJob p.jobs m := by
  obtain ⟨order, horder⟩ := horder
  obtain ⟨_, hnodup, hmem, hdeps⟩ := getExecutionOrder_ok_spec horder
  rw [run_order_ok horder] at hrun
  have h' := Option.some.inj hrun
  obtain ⟨h1, h2⟩ := Prod.mk.injEq .. |>.mp h'
  obtain ⟨h3, h4⟩ := Prod.mk.injEq .. |>.mp h2
  obtain ⟨h5, h6⟩ := Prod.mk.injEq .. |>.mp h4
  cases hres2 : (runJobs order (runLoopState p init clock)).2 with
  | ok u =>
    rw [hres2] at h6
    exact absurd h6 (by simp)
  | error e' =>
    rw [hres2] at h6
    have h7 : (Except.error e' : Except String Ctx) = Except.error e := h6
    have he : e' = e := by injection h7
    rw [he] at hres2
    have hrunjobs : runJobs order (runLoopState p init clock) =
        ((runJobs order (runLoopState p init clock)).1, .error e) := by
      rw [← hres2]
    obtain ⟨l₁, n, l₂, jf, hsplit, hfind, hst, herr, hrest⟩ :=
      runJobs_error_spec order (runLoopState p init clock)
        (runJobs order (runLoopState p init clock)).1 e hnodup
        (fun m hm => findJob_isSome_iff.mpr ((hmem m).mp hm))
        (fun m hm job hjob d hd =>
          findJob_isSome_iff.mpr ((hmem d).mp (hdeps m hm job hjob d hd).1))
        hrunjobs
    refine ⟨order, l₁, n, l₂, jf, horder, hsplit, ?_, hst, herr, ?_⟩
    · rw [← h1]
      exact hfind
    · intro m hm
      rw [← h1]
      exact hrest m hm

/-- Witness for C4 at the one-job failing pipeline. -/
theorem run_fail_fast_witness :
    ∃ p' clk w, failPipe.run 10 none 0 = some (p', clk, w, .error "ValueError: boom") ∧
      ∃ order l₁ n l₂ jf, getExecutionOrder failPipe.jobs 10 = some (.ok order) ∧
        order = l₁ ++ n :: l₂ ∧ findJob p'.jobs n = some jf ∧
        jf.status = JobStatus.failed ∧ jf.error = some "ValueError: boom" ∧
        ∀ m ∈ l₂, findJob p'.jobs m = findJob failPipe.jobs m := by
  refine ⟨_, _, _, rfl, ?_⟩
  exact run_fail_fast failPipe 10 none 0 _ _ _ "ValueError: boom" ⟨["boom"], rfl⟩ rfl

/-- C6: during a fresh run every successfully executed job has its returned result
written to the context under `job_<name>_result` exactly once; in particular the
`{load, double→[load]}` run doubles `load`'s `x` and reports both jobs `Success`
with two jobs in total. -/
theorem run_writes_result_once :
    (∀ (p : Pipeline) (fuel : Nat) (init : Option Ctx) (clock : Nat)
       (p' : Pipeline) (clk : Nat) (w : List (String × Value)) (out : Except String Ctx),
      (∀ j ∈ p.jobs, j.status = JobStatus.pending) →
      p.run fuel init clock = some (p', clk, w, out) →
      ∀ n jf, findJob p'.jobs n = some jf → jf.status = JobStatus.success →
        ∃ v, jf.result = some v ∧
          w.filter (fun x => x.1 == resultKey n) = [(resultKey n, v)]) ∧
    (∃ p' clk w ctx, exPipe.run 10 none 0 = some (p', clk, w, .ok ctx) ∧
      lookup ctx "job_double_result" = some (.int 2) ∧
      p'.get_status_summary.total_jobs = 2 ∧
      (p'.get_status_summary.jobs).map (fun x => (x.1, x.2.status)) =
        [("load", "success"), ("double", "success")]) := by
  constructor
  · intro p fuel init clock p' clk w out hpend hrun n jf hfind hsucc
    cases horder : getExecutionOrder p.jobs fuel with
    | none => rw [run_order_none horder] at hrun; exact absurd hrun (by simp)
    | some r =>
      cases r with
      | error e =>
        rw [run_order_error horder] at hrun
        have h' := Option.some.inj hrun
        obtain ⟨h1, h2⟩ := Prod.mk.injEq .. |>.mp h'
        obtain ⟨h3, h4⟩ := Prod.mk.injEq .. |>.mp h2
        obtain ⟨h5, h6⟩ := Prod.mk.injEq .. |>.mp h4
        exfalso
        rw [← h1] at hfind
        have := hpend jf (findJob_eq_some hfind).1
        rw [this] at hsucc
        exact absurd hsucc (by simp)
      | ok order =>
        rw [run_order_ok horder] at hrun
        obtain ⟨_, hnodup, hmem, hdeps⟩ := getExecutionOrder_ok_spec horder
        have hpres : ∀ m ∈ order, (findJob (runLoopState p init clock).jobs m).isSome :=
          fun m hm => findJob_isSome_iff.mpr ((hmem m).mp hm)
        have hdeps' : ∀ m ∈ order, ∀ job,
            findJob (runLoopState p init clock).jobs m = some job → ∀ d ∈ job.depends_on,
            (findJob (runLoopState p init clock).jobs d).isSome ∧
            (d ∈ order → order.indexOf d < order.indexOf m) := by
          intro m hm job hjob d hd
          obtain ⟨hdo, hlt⟩ := hdeps m hm job hjob d hd
          exact ⟨findJob_isSome_iff.mpr ((hmem d).mp hdo), fun _ => hlt⟩
        have hstat : ∀ j ∈ (runLoopState p init clock).jobs,
            (j.name ∈ order → j.status = JobStatus.pending ∧
              (runLoopState p init clock).writes.filter
                (fun x => x.1 == resultKey j.name) = []) ∧
            (j.name ∉ order → j.status = JobStatus.success ∧ ∃ v, j.result = some v ∧
              (runLoopState p init clock).writes.filter
                (fun x => x.1 == resultKey j.name) = [(resultKey j.name, v)]) := by
          intro j hj
          constructor
          · intro _
            exact ⟨hpend j hj, rfl⟩
          · intro hnot
            exact absurd ((hmem j.name).mpr (List.mem_map.mpr ⟨j, hj, rfl⟩)) hnot
        obtain ⟨_, _, hwr⟩ :=
          runJobs_pending_spec order (runLoopState p init clock) hnodup hpres hdeps' hstat
        have h' := Option.some.inj hrun
        obtain ⟨h1, h2⟩ := Prod.mk.injEq .. |>.mp h'
        obtain ⟨h3, h4⟩ := Prod.mk.injEq .. |>.mp h2
        obtain ⟨h5, h6⟩ := Prod.mk.injEq .. |>.mp h4
        rw [← h1] at hfind
        obtain ⟨hjmem, hjname⟩ := findJob_eq_some hfind
        obtain ⟨v, hv, hw⟩ := hwr jf hjmem hsucc
        refine ⟨v, hv, ?_⟩
        rw [← h5, ← hjname]
        exact hw
  · refine ⟨_, _, _, _, rfl, rfl, rfl, rfl⟩

/-- Witness for C6 at a clean run of the example pipeline. -/
theorem run_writes_result_once_witness :
    ∃ p' clk w ctx, exPipe.run 10 none 0 = some (p', clk, w, .ok ctx) ∧
      ∃ v, w.filter (fun x => x.1 == resultKey "load") = [(resultKey "load", v)] := by
  refine ⟨_, _, _, _, rfl, ?_⟩
  obtain ⟨v, _, hw⟩ := run_writes_result_once.1 exPipe 10 none 0 _ _ _ _
    (by decide) rfl "load" _ rfl rfl
  exact ⟨v, hw⟩

/-- C7 counterexample: job `c` of `cycMissJobs` declares the absent dependency
`zz`, yet `get_execution_order` never raises the `MissingDependency` condition:
the traversal reaches the `a↔b` cycle first and exhausts every amount of fuel. -/
theorem missing_dependency_counterexample :
    findJob cycMissJobs "zz" = none ∧ missC ∈ cycMissJobs ∧ "zz" ∈ missC.depends_on ∧
    ∀ fuel, getExecutionOrder cycMissJobs fuel = none :=
  ⟨rfl, by simp [cycMissJobs], by simp [missC], cycMiss_diverges⟩

/-- C7 (amended): on an acyclic pipeline, `get_execution_order()` raises the
`MissingDependency` condition whenever some stored job's `depends_on` entry names
an absent job, and since `run` computes the order before its job loop, that
failure aborts `run` with no job touched, no context write, and no clock
advance. -/
theorem missing_dependency_raises (p : Pipeline) (hacyc : Acyclic p.jobs)
    (hmiss : ∃ n job d, findJob p.jobs n = some job ∧ d ∈ job.depends_on ∧
      findJob p.jobs d = none) :
    ∃ fuel d, findJob p.jobs d = none ∧
      getExecutionOrder p.jobs fuel = some (.error s!"Job {d} not found in pipeline") ∧
      ∀ init clock, p.run fuel init clock =
        some ({ p with context := runInitialContext p init }, clock, [],
          .error s!"Job {d} not found in pipeline") := by
  obtain ⟨fuel, r, hr⟩ := getExecutionOrder_total hacyc
  cases r with
  | ok order =>
    exfalso
    obtain ⟨n, job, d, hn, hd, hdn⟩ := hmiss
    obtain ⟨_, _, hmem, hdeps⟩ := getExecutionOrder_ok_spec hr
    have hnmem : n ∈ order := (hmem n).mpr (findJob_isSome_iff.mp (by rw [hn]; rfl))
    have hdo : d ∈ order := (hdeps n hnmem job hn d hd).1
    have hsome : (findJob p.jobs d).isSome := findJob_isSome_iff.mpr ((hmem d).mp hdo)
    rw [hdn] at hsome
    exact absurd hsome (by simp)
  | error e =>
    have hshape : ∃ d, findJob p.jobs d = none ∧
        e = s!"Job {d} not found in pipeline" := by
      rw [getExecutionOrder_eq] at hr
      cases hvl : visitList (visit p.jobs fuel) ⟨[], []⟩ (p.jobs.map Job.name) with
      | none => rw [hvl] at hr; exact absurd hr (by simp)
      | some r' =>
        cases r' with
        | ok s => rw [hvl] at hr; exact absurd hr (by simp)
        | error e' =>
          rw [hvl] at hr
          obtain rfl : e' = e := by injection hr with h'; injection h'
          exact visitList_error_shape_of (visit_error_shape fuel) _ _ _ hvl
    obtain ⟨d, hdn, rfl⟩ := hshape
    exact ⟨fuel, d, hdn, hr, fun init clock => run_order_error hr⟩

/-- Witness for the amended C7 at the one-job pipeline with a missing
dependency. -/
theorem missing_dependency_raises_witness :
    ∃ fuel d, findJob missPipe.jobs d = none ∧
      getExecutionOrder missPipe.jobs fuel =
        some (.error s!"Job {d} not found in pipeline") ∧
      ∀ init clock, missPipe.run fuel init clock =
        some ({ missPipe with context := runInitialContext missPipe init }, clock, [],
          .error s!"Job {d} not found in pipeline") :=
  missing_dependency_raises missPipe missPipe_acyclic
    ⟨"c", missC, "zz", rfl, by simp [missC], rfl⟩

/-- C10: `run_all_pipelines` runs each pipeline in insertion order, records
`{'error': str(e)}` as the entry of a pipeline whose run raised, never propagates
the failure, and returns one entry per pipeline. -/
theorem run_all_pipelines_spec (c : ProcessController) (fuel : Nat)
    (ctx : Option Ctx) (clock : Nat) :
    ((∀ p ∈ c.pipelines, ∀ clk, (p.run fuel ctx clk).isSome) →
      (c.run_all_pipelines fuel ctx clock).isSome) ∧
    (∀ results c' clockEnd,
      c.run_all_pipelines fuel ctx clock = some (results, c', clockEnd) →
      results.map Prod.fst = c.pipelines.map Pipeline.name ∧
      results.length = c.pipelines.length ∧
      (∀ (i : Nat) (p : Pipeline), c.pipelines[i]? = some p →
        ∃ clk p' clk' w outcome, p.run fuel ctx clk = some (p', clk', w, outcome) ∧
          results[i]? = some (p.name,
            match outcome with
            | .ok fctx => fctx
            | .error er => [("error", Value.str er)]))) := by
  constructor
  · intro hall
    rw [run_all_pipelines_eq]
    obtain ⟨q, hq⟩ := Option.isSome_iff_exists.mp (runAllAux_isSome c.pipelines clock hall)
    obtain ⟨results, ps, clockEnd⟩ := q
    rw [hq]
    rfl
  · intro results c' clockEnd h
    rw [run_all_pipelines_eq] at h
    cases haux : runAllAux fuel ctx c.pipelines clock with
    | none => rw [haux] at h; exact absurd h (by simp)
    | some q =>
      obtain ⟨results', ps, clockEnd'⟩ := q
      rw [haux] at h
      obtain rfl : results' = results := by
        injection h with h'
        exact (Prod.mk.injEq .. |>.mp h').1
      obtain ⟨hmap, hidx⟩ := runAllAux_spec c.pipelines clock results' ps clockEnd' haux
      refine ⟨hmap, ?_, hidx⟩
      have hlen := congrArg List.length hmap
      simpa using hlen

/-- Witness for C10 at a controller holding one succeeding and one failing
pipeline. -/
theorem run_all_pipelines_spec_witness :
    (exCtrl.run_all_pipelines 10 none 0).isSome ∧
    ∃ results c' ce, exCtrl.run_all_pipelines 10 none 0 = some (results, c', ce) ∧
      results.map Prod.fst = ["p1", "p2"] := by
  have hall : ∀ p ∈ exCtrl.pipelines, ∀ clk, (p.run 10 none clk).isSome := by
    intro p hp clk
    rcases List.mem_cons.mp hp with rfl | hp
    · rfl
    · rcases List.mem_cons.mp hp with rfl | hp
      · rfl
      · simp [exCtrl] at hp
  refine ⟨(run_all_pipelines_spec exCtrl 10 none 0).1 hall, _, _, _, rfl, ?_⟩
  exact ((run_all_pipelines_spec exCtrl 10 none 0).2 _ _ _ rfl).1.trans rfl
